import Mathlib

set_option linter.unusedSectionVars false
set_option linter.unusedVariables false
set_option linter.unnecessarySimpa false

/-!
Verification of the rustman-encoder repository: a binary-heap priority queue
(`rust_ds/src/heap.rs`) and a Huffman encoder built on top of it
(`src/huffman.rs`).  The Rust code is shallowly embedded: `Vec<T>` becomes
`List α`, `HashMap` becomes an association list with last-insert-wins lookup,
`u16`/`u32` arithmetic becomes `Nat` arithmetic reduced modulo `2^16`/`2^32`
where the source can overflow, and panicking operations (`unwrap`, `todo!`)
are modelled by `Option` with `none` for the panic.
-/

namespace Heap

/-- The `HeapType` from heap.rs: the Min/Max ordering policy. -/
inductive HeapType where
  | Min
  | Max
deriving DecidableEq, Repr

/-- The `ChildSide` from heap.rs. -/
inductive ChildSide where
  | Left
  | Right
deriving DecidableEq, Repr

/-- The `BinaryHeap<T>` from heap.rs: a policy together with the backing vector. -/
structure BinaryHeap (α : Type) where
  heap_type : HeapType
  heap : List α

variable {α : Type} [LT α] [DecidableRel ((· < ·) : α → α → Prop)]

/-- The `BinaryHeap::new` from heap.rs. -/
def BinaryHeap.new (ht : HeapType) : BinaryHeap α :=
  { heap_type := ht, heap := [] }

/-- The `BinaryHeap::default` from heap.rs: an empty Min-heap. -/
def BinaryHeap.default : BinaryHeap α :=
  { heap_type := HeapType.Min, heap := [] }

/-- The `BinaryHeap::size` from heap.rs. -/
def BinaryHeap.size (h : BinaryHeap α) : Nat :=
  h.heap.length

/-- The `BinaryHeap::peek` from heap.rs: `self.heap.get(0)`. -/
def BinaryHeap.peek (h : BinaryHeap α) : Option α :=
  h.heap[0]?

/-- The `parent_index` from heap.rs.  It only reads the index, never `self`. -/
def parent_index (i : Nat) : Option Nat :=
  if i ≤ 0 then
    none
  else if i % 2 = 1 then
    some (i / 2)
  else
    some (i / 2 - 1)

/-- The `child_index` from heap.rs. -/
def child_index (i : Nat) : ChildSide → Nat
  | ChildSide.Left => i * 2 + 1
  | ChildSide.Right => i * 2 + 2

/-- The `comp` from heap.rs: the policy-directed strict comparison
(`c < o` for Min, `c > o` for Max). -/
def comp (ht : HeapType) (c o : α) : Bool :=
  match ht with
  | HeapType.Min => decide (c < o)
  | HeapType.Max => decide (o < c)

/-- The `Vec::swap` on the backing list (both indices are in bounds at every
call site; out-of-bounds is modelled as a no-op). -/
def swapL (l : List α) (i j : Nat) : List α :=
  match l[i]?, l[j]? with
  | some a, some b => (l.set i b).set j a
  | _, _ => l

/-- The `get_child` from heap.rs: the policy-preferred present child of `i`,
with its index. -/
def get_child (ht : HeapType) (l : List α) (i : Nat) : Option (Nat × α) :=
  match l[child_index i ChildSide.Left]?, l[child_index i ChildSide.Right]? with
  | none, none => none
  | some lv, none => some (child_index i ChildSide.Left, lv)
  | none, some rv => some (child_index i ChildSide.Right, rv)
  | some lv, some rv =>
      if comp ht lv rv then some (child_index i ChildSide.Left, lv)
      else some (child_index i ChildSide.Right, rv)

theorem swapL_length (l : List α) (i j : Nat) : (swapL l i j).length = l.length := by
  unfold swapL
  rcases hi : l[i]? with _ | a <;> rcases hj : l[j]? with _ | b <;> simp

theorem get_child_cases {ht : HeapType} {l : List α} {i ci : Nat} {c : α}
    (h : get_child ht l i = some (ci, c)) :
    (ci = i * 2 + 1 ∨ ci = i * 2 + 2) ∧ l[ci]? = some c := by
  unfold get_child child_index at h
  split at h
  next => exact absurd h (by simp)
  next lv hl hr =>
    simp only [Option.some.injEq, Prod.mk.injEq] at h
    exact ⟨Or.inl h.1.symm, h.1 ▸ h.2 ▸ hl⟩
  next rv hl hr =>
    simp only [Option.some.injEq, Prod.mk.injEq] at h
    exact ⟨Or.inr h.1.symm, h.1 ▸ h.2 ▸ hr⟩
  next lv rv hl hr =>
    split at h <;> simp only [Option.some.injEq, Prod.mk.injEq] at h
    · exact ⟨Or.inl h.1.symm, h.1 ▸ h.2 ▸ hl⟩
    · exact ⟨Or.inr h.1.symm, h.1 ▸ h.2 ▸ hr⟩

theorem get_child_gt {ht : HeapType} {l : List α} {i ci : Nat} {c : α}
    (h : get_child ht l i = some (ci, c)) : i < ci := by
  rcases (get_child_cases h).1 with h1 | h1 <;> omega

theorem get_child_lt_length {ht : HeapType} {l : List α} {i ci : Nat} {c : α}
    (h : get_child ht l i = some (ci, c)) : ci < l.length := by
  have := (get_child_cases h).2
  exact List.getElem?_eq_some_iff.mp this |>.fst

/-- One conditional swap of `percolate_down`, factored out so the recursion
has a clean length-preservation argument. -/
def downStep (ht : HeapType) (l : List α) (i ci : Nat) (c : α) : List α :=
  match l[i]? with
  | some cur => if comp ht c cur then swapL l i ci else l
  | none => l

theorem downStep_length (ht : HeapType) (l : List α) (i ci : Nat) (c : α) :
    (downStep ht l i ci c).length = l.length := by
  unfold downStep
  rcases h : l[i]? with _ | cur
  · rfl
  · by_cases hc : comp ht c cur = true <;> simp [hc, swapL_length]

/-- The loop of `percolate_down` from heap.rs, starting at index `i`. -/
def percDownFrom (ht : HeapType) (l : List α) (i : Nat) : List α :=
  if i * 2 < l.length then
    match hc : get_child ht l i with
    | some (ci, c) => percDownFrom ht (downStep ht l i ci c) ci
    | none => l
  else l
termination_by l.length - i
decreasing_by
  simp only [downStep_length]
  have h1 : i < ci := get_child_gt hc
  have h2 : i ≤ i * 2 := by omega
  omega

/-- The `percolate_down` from heap.rs (always starts at the root). -/
def percolate_down (ht : HeapType) (l : List α) : List α :=
  percDownFrom ht l 0

/-- The loop of `percolate_up` from heap.rs, starting at index `i`. -/
def percUpFrom (ht : HeapType) (l : List α) (i : Nat) : List α :=
  match hp : parent_index i with
  | some p =>
      percUpFrom ht
        (match l[i]?, l[p]? with
          | some c, some pv => if comp ht c pv then swapL l i p else l
          | _, _ => l) p
  | none => l
termination_by i
decreasing_by
  unfold parent_index at hp
  split at hp
  · exact absurd hp (by simp)
  · split at hp <;> simp at hp <;> omega

/-- The `percolate_up` from heap.rs: starts at the last index. -/
def percolate_up (ht : HeapType) (l : List α) : List α :=
  percUpFrom ht l (l.length - 1)

/-- The `BinaryHeap::insert` from heap.rs: push, then percolate up. -/
def BinaryHeap.insert (h : BinaryHeap α) (item : α) : BinaryHeap α :=
  { h with heap := percolate_up h.heap_type (h.heap ++ [item]) }

/-- The `BinaryHeap::pop` from heap.rs: remove the root, move the last element
to the front, percolate down.  The mutating Rust signature
`&mut self -> Option<T>` is modelled as a pair. -/
def BinaryHeap.pop (h : BinaryHeap α) : Option α × BinaryHeap α :=
  match h.heap with
  | [] => (none, h)
  | x :: rest =>
      match rest.getLast? with
      | some last =>
          (some x, { h with heap := percolate_down h.heap_type (last :: rest.dropLast) })
      | none => (some x, { h with heap := rest })

theorem cons_set_perm {xs : List α} {j : Nat} {b : α} (hj : xs[j]? = some b) (x : α) :
    (b :: xs.set j x).Perm (x :: xs) := by
  induction xs generalizing j with
  | nil => simp at hj
  | cons y t ih =>
    cases j with
    | zero =>
      simp only [List.getElem?_cons_zero, Option.some.injEq] at hj
      subst hj
      simpa using List.Perm.swap x y t
    | succ j =>
      simp only [List.getElem?_cons_succ] at hj
      have h1 : (b :: y :: t.set j x).Perm (y :: b :: t.set j x) := List.Perm.swap y b _
      have h2 : (y :: b :: t.set j x).Perm (y :: x :: t) := (ih hj).cons y
      have h3 : (y :: x :: t).Perm (x :: y :: t) := List.Perm.swap x y t
      simpa using (h1.trans h2).trans h3

theorem set_set_perm : ∀ {l : List α} {i j : Nat} {a b : α},
    l[i]? = some a → l[j]? = some b → ((l.set i b).set j a).Perm l := by
  intro l
  induction l with
  | nil => intro i j a b hi; simp at hi
  | cons y t ih =>
    intro i j a b hi hj
    cases i with
    | zero =>
      simp only [List.getElem?_cons_zero, Option.some.injEq] at hi
      subst hi
      cases j with
      | zero => simp
      | succ j =>
        simp only [List.getElem?_cons_succ] at hj
        simpa using cons_set_perm hj y
    | succ i =>
      simp only [List.getElem?_cons_succ] at hi
      cases j with
      | zero =>
        simp only [List.getElem?_cons_zero, Option.some.injEq] at hj
        subst hj
        simpa using cons_set_perm hi y
      | succ j =>
        simp only [List.getElem?_cons_succ] at hj
        simpa using (ih hi hj).cons y

theorem swapL_perm (l : List α) (i j : Nat) : (swapL l i j).Perm l := by
  unfold swapL
  split
  next a b hi hj => exact set_set_perm hi hj
  next => exact List.Perm.refl l

theorem swapL_getElem? {l : List α} {i j : Nat} {a b : α}
    (hi : l[i]? = some a) (hj : l[j]? = some b) (n : Nat) :
    (swapL l i j)[n]? = if n = j then some a else if n = i then some b else l[n]? := by
  have hi' : i < l.length := (List.getElem?_eq_some_iff.mp hi).1
  have hj' : j < l.length := (List.getElem?_eq_some_iff.mp hj).1
  unfold swapL
  rw [hi, hj]
  by_cases h1 : n = j
  · subst h1
    simp [List.getElem?_set, hj']
  · by_cases h2 : n = i
    · subst h2
      simp [List.getElem?_set, h1, Ne.symm h1, hi']
    · simp [List.getElem?_set, h1, h2, Ne.symm h1, Ne.symm h2]

theorem downStep_perm (ht : HeapType) (l : List α) (i ci : Nat) (c : α) :
    (downStep ht l i ci c).Perm l := by
  unfold downStep
  split
  next cur h =>
    split
    · exact swapL_perm l i ci
    · exact List.Perm.refl l
  next => exact List.Perm.refl l

theorem percDownFrom_eq (ht : HeapType) (l : List α) (i : Nat) :
    percDownFrom ht l i =
      if i * 2 < l.length then
        match get_child ht l i with
        | some (ci, c) => percDownFrom ht (downStep ht l i ci c) ci
        | none => l
      else l := by
  rw [percDownFrom]
  split
  next hlen =>
    split
    next ci c heq => rw [heq]
    next heq => rw [heq]
  next hlen => rfl

theorem percDownFrom_perm (ht : HeapType) (l : List α) (i : Nat) :
    (percDownFrom ht l i).Perm l := by
  induction l, i using @percDownFrom.induct α _ _ ht
  next l i hlen ci c hc ih =>
    rw [percDownFrom_eq, if_pos hlen]
    simp only [hc]
    exact ih.trans (downStep_perm ht l i ci c)
  next l i hlen hc =>
    rw [percDownFrom_eq, if_pos hlen]
    simp only [hc]
    exact List.Perm.refl l
  next l i hlen =>
    rw [percDownFrom_eq, if_neg hlen]

theorem percDownFrom_length (ht : HeapType) (l : List α) (i : Nat) :
    (percDownFrom ht l i).length = l.length :=
  (percDownFrom_perm ht l i).length_eq

/-- The conditional swap inside one `percolate_up` iteration. -/
def upStep (ht : HeapType) (l : List α) (i p : Nat) : List α :=
  match l[i]?, l[p]? with
  | some c, some pv => if comp ht c pv then swapL l i p else l
  | _, _ => l

theorem upStep_perm (ht : HeapType) (l : List α) (i p : Nat) :
    (upStep ht l i p).Perm l := by
  unfold upStep
  split
  next c pv hi hp =>
    split
    · exact swapL_perm l i p
    · exact List.Perm.refl l
  next => exact List.Perm.refl l

theorem percUpFrom_eq_upStep (ht : HeapType) (l : List α) (i : Nat) :
    percUpFrom ht l i =
      match parent_index i with
      | some p => percUpFrom ht (upStep ht l i p) p
      | none => l := by
  rw [percUpFrom]
  rcases h : parent_index i with _ | p <;> simp [upStep]

theorem percUpFrom_perm (ht : HeapType) (l : List α) (i : Nat) :
    (percUpFrom ht l i).Perm l := by
  induction i using Nat.strong_induction_on generalizing l with
  | _ i ih =>
    rw [percUpFrom_eq_upStep]
    rcases hp : parent_index i with _ | p
    · exact List.Perm.refl l
    · have hlt : p < i := by
        unfold parent_index at hp
        split at hp
        · exact absurd hp (by simp)
        · split at hp <;> simp at hp <;> omega
      exact (ih p hlt _).trans (upStep_perm ht l i p)

theorem percUpFrom_length (ht : HeapType) (l : List α) (i : Nat) :
    (percUpFrom ht l i).length = l.length :=
  (percUpFrom_perm ht l i).length_eq

theorem insert_heap_perm (h : BinaryHeap α) (x : α) :
    (h.insert x).heap.Perm (x :: h.heap) := by
  unfold BinaryHeap.insert percolate_up
  have h1 := percUpFrom_perm h.heap_type (h.heap ++ [x]) ((h.heap ++ [x]).length - 1)
  have h2 : (h.heap ++ [x]).Perm (x :: h.heap) := by
    simpa using @List.perm_middle α x h.heap []
  exact h1.trans h2

theorem insert_size (h : BinaryHeap α) (x : α) :
    (h.insert x).size = h.size + 1 := by
  have := (insert_heap_perm h x).length_eq
  simpa [BinaryHeap.size] using this

theorem insert_heap_type (h : BinaryHeap α) (x : α) :
    (h.insert x).heap_type = h.heap_type := rfl

theorem pop_nil (ht0 : HeapType) :
    BinaryHeap.pop { heap_type := ht0, heap := ([] : List α) } =
      (none, { heap_type := ht0, heap := [] }) := by
  rfl

theorem pop_cons (ht0 : HeapType) (x : α) (rest : List α) :
    BinaryHeap.pop { heap_type := ht0, heap := x :: rest } =
      match rest.getLast? with
      | some last =>
          (some x, { heap_type := ht0, heap := percolate_down ht0 (last :: rest.dropLast) })
      | none => (some x, { heap_type := ht0, heap := rest }) := by
  rfl

theorem pop_none_iff (h : BinaryHeap α) : (h.pop).1 = none ↔ h.heap = [] := by
  obtain ⟨ht0, hp⟩ := h
  rcases hp with _ | ⟨x, rest⟩
  · simp [pop_nil]
  · rw [pop_cons]
    rcases hl : rest.getLast? with _ | last <;> simp

theorem cons_dropLast_perm {rest : List α} {last : α}
    (hl : rest.getLast? = some last) : (last :: rest.dropLast).Perm rest := by
  have hne : rest ≠ [] := by
    intro hcon; rw [hcon] at hl; simp at hl
  have hlast : last = rest.getLast hne := by
    have := List.getLast?_eq_getLast rest hne
    rw [hl] at this
    simpa using this
  have h1 : (last :: rest.dropLast).Perm (rest.dropLast ++ [last]) := by
    have := (@List.perm_middle α last rest.dropLast []).symm
    simpa using this
  have h2 : rest.dropLast ++ [last] = rest := by
    rw [hlast]
    exact List.dropLast_append_getLast hne
  rw [h2] at h1
  exact h1

theorem pop_some_perm {h : BinaryHeap α} {v : α} {h' : BinaryHeap α}
    (hp : h.pop = (some v, h')) : (v :: h'.heap).Perm h.heap := by
  obtain ⟨ht0, hp0⟩ := h
  rcases hp0 with _ | ⟨x, rest⟩
  · rw [pop_nil] at hp
    exact absurd hp (by simp)
  · rw [pop_cons] at hp
    rcases hl : rest.getLast? with _ | last <;> rw [hl] at hp <;>
      simp only [Prod.mk.injEq, Option.some.injEq] at hp <;>
      obtain ⟨hv, hh'⟩ := hp <;> subst hv
    · have : rest = [] := by simpa using hl
      subst this
      simp [← hh']
    · have h1 : h'.heap.Perm (last :: rest.dropLast) := by
        rw [← hh']
        exact percDownFrom_perm _ _ _
      exact List.Perm.cons x (h1.trans (cons_dropLast_perm hl))

theorem pop_some_size {h : BinaryHeap α} {v : α} {h' : BinaryHeap α}
    (hp : h.pop = (some v, h')) : h'.size + 1 = h.size := by
  have := (pop_some_perm hp).length_eq
  simpa [BinaryHeap.size] using this

theorem pop_heap_type (h : BinaryHeap α) : (h.pop).2.heap_type = h.heap_type := by
  obtain ⟨ht0, hp0⟩ := h
  rcases hp0 with _ | ⟨x, rest⟩
  · rw [pop_nil]
  · rw [pop_cons]
    rcases hl : rest.getLast? with _ | last <;> rfl

theorem pop_of_ne_nil {h : BinaryHeap α} (hne : h.heap ≠ []) :
    ∃ v h', h.pop = (some v, h') := by
  rcases hp : h.pop with ⟨v?, h'⟩
  rcases v? with _ | v
  · have : (h.pop).1 = none := by rw [hp]
    exact absurd (pop_none_iff h |>.mp this) hne
  · exact ⟨v, h', rfl⟩

/-- The properties of Rust `PartialOrd::lt` that the heap relies on: a strict
weak order.  They hold both for a linear order and for the frequency-based
ordering of `HuffmanNode`. -/
structure LawfulLt (α : Type) [LT α] : Prop where
  lt_irrefl : ∀ a : α, ¬ a < a
  lt_asymm : ∀ {a b : α}, a < b → ¬ b < a
  not_lt_trans : ∀ {a b c : α}, ¬ b < a → ¬ c < b → ¬ c < a

/-- The `hle ht a b` means the policy never swaps `b` above `a`: for Min-heaps
`a ≤ b`, for Max-heaps `a ≥ b`. -/
def hle (ht : HeapType) (a b : α) : Prop :=
  comp ht b a = false

theorem hle_refl (hL : LawfulLt α) (ht : HeapType) (a : α) : hle ht a a := by
  cases ht <;> simp [hle, comp, hL.lt_irrefl a]

theorem hle_trans (hL : LawfulLt α) {ht : HeapType} {a b c : α}
    (h1 : hle ht a b) (h2 : hle ht b c) : hle ht a c := by
  cases ht <;>
    simp only [hle, comp, decide_eq_false_iff_not] at h1 h2 ⊢
  · exact hL.not_lt_trans h1 h2
  · exact hL.not_lt_trans h2 h1

theorem hle_of_comp_true (hL : LawfulLt α) {ht : HeapType} {a b : α}
    (h : comp ht a b = true) : hle ht a b := by
  cases ht <;>
    simp only [hle, comp, decide_eq_true_eq, decide_eq_false_iff_not] at h ⊢ <;>
    exact hL.lt_asymm h

theorem hle_of_comp_false {ht : HeapType} {a b : α}
    (h : comp ht a b = false) : hle ht b a :=
  h

theorem parent_index_of_child {i j : Nat} (h : j = i * 2 + 1 ∨ j = i * 2 + 2) :
    parent_index j = some i := by
  unfold parent_index
  rcases h with h | h <;> subst h
  · rw [if_neg (by omega), if_pos (by omega)]
    congr 1
    omega
  · rw [if_neg (by omega), if_neg (by omega)]
    congr 1
    omega

theorem child_of_parent_index {i p : Nat} (h : parent_index i = some p) :
    i = p * 2 + 1 ∨ i = p * 2 + 2 := by
  unfold parent_index at h
  split at h
  · simp at h
  · split at h <;> simp only [Option.some.injEq] at h <;> omega

theorem parent_index_lt {i p : Nat} (h : parent_index i = some p) : p < i := by
  unfold parent_index at h
  split at h
  · exact absurd h (by simp)
  · split at h <;> simp only [Option.some.injEq] at h <;> omega

theorem parent_index_none {i : Nat} (h : parent_index i = none) : i = 0 := by
  unfold parent_index at h
  split at h
  · omega
  · split at h <;> simp at h

theorem lt_length_of_getElem?_some {l : List α} {n : Nat} {a : α}
    (h : l[n]? = some a) : n < l.length :=
  (List.getElem?_eq_some_iff.mp h).1

/-- The binary-heap ordering invariant of heap.rs: every element is
`hle`-before both of its children. -/
def HeapInv (ht : HeapType) (l : List α) : Prop :=
  ∀ i j a b, (j = i * 2 + 1 ∨ j = i * 2 + 2) →
    l[i]? = some a → l[j]? = some b → hle ht a b

/-- The `percolate_up` loop invariant at position `k`: every parent-child
pair except the one into `k` is ordered, and the children of `k` are
ordered after the parent of `k`. -/
def UpInv (ht : HeapType) (l : List α) (k : Nat) : Prop :=
  (∀ i j a b, j ≠ k → (j = i * 2 + 1 ∨ j = i * 2 + 2) →
    l[i]? = some a → l[j]? = some b → hle ht a b)
  ∧ (∀ p j a b, parent_index k = some p → (j = k * 2 + 1 ∨ j = k * 2 + 2) →
    l[p]? = some a → l[j]? = some b → hle ht a b)

/-- The `percolate_down` loop invariant at position `k`: every parent-child
pair except those out of `k` is ordered, and the children of `k` are
ordered after the parent of `k`. -/
def DownInv (ht : HeapType) (l : List α) (k : Nat) : Prop :=
  (∀ i j a b, i ≠ k → (j = i * 2 + 1 ∨ j = i * 2 + 2) →
    l[i]? = some a → l[j]? = some b → hle ht a b)
  ∧ (∀ p j a b, parent_index k = some p → (j = k * 2 + 1 ∨ j = k * 2 + 2) →
    l[p]? = some a → l[j]? = some b → hle ht a b)

theorem heapInv_upInv (hL : LawfulLt α) {ht : HeapType} {l : List α}
    (h : HeapInv ht l) (k : Nat) : UpInv ht l k := by
  refine ⟨fun i j a b _ hc ha hb => h i j a b hc ha hb, ?_⟩
  intro p j a b hp hc ha hb
  have hj : j < l.length := lt_length_of_getElem?_some hb
  have hk : k < l.length := by rcases hc with hc | hc <;> omega
  obtain ⟨ck, hck⟩ : ∃ ck, l[k]? = some ck :=
    ⟨l[k], List.getElem?_eq_getElem hk⟩
  exact hle_trans hL (h p k a ck (child_of_parent_index hp) ha hck)
    (h k j ck b hc hck hb)

theorem heapInv_downInv (hL : LawfulLt α) {ht : HeapType} {l : List α}
    (h : HeapInv ht l) (k : Nat) : DownInv ht l k := by
  refine ⟨fun i j a b _ hc ha hb => h i j a b hc ha hb, ?_⟩
  intro p j a b hp hc ha hb
  have hj : j < l.length := lt_length_of_getElem?_some hb
  have hk : k < l.length := by rcases hc with hc | hc <;> omega
  obtain ⟨ck, hck⟩ : ∃ ck, l[k]? = some ck :=
    ⟨l[k], List.getElem?_eq_getElem hk⟩
  exact hle_trans hL (h p k a ck (child_of_parent_index hp) ha hck)
    (h k j ck b hc hck hb)

theorem upInv_of_none {ht : HeapType} {l : List α} {k : Nat}
    (hk : l[k]? = none) (hInv : UpInv ht l k) : HeapInv ht l := by
  intro i j a b hc ha hb
  have hjk : j ≠ k := by
    intro he
    rw [he, hk] at hb
    exact absurd hb (by simp)
  exact hInv.1 i j a b hjk hc ha hb

theorem upStep_upInv (hL : LawfulLt α) {ht : HeapType} {l : List α} {k p : Nat}
    (hp : parent_index k = some p) (hInv : UpInv ht l k) :
    UpInv ht (upStep ht l k p) p := by
  have hpk : p < k := parent_index_lt hp
  unfold upStep
  rcases hgk : l[k]? with _ | c
  · -- `unwrap` situation: index `k` out of range, the step is the identity
    exact heapInv_upInv hL (upInv_of_none hgk hInv) p
  · rcases hgp : l[p]? with _ | pv
    · -- impossible (p < k < length), the step is the identity anyway
      have hk : k < l.length := lt_length_of_getElem?_some hgk
      have : l[p]? = some l[p] := List.getElem?_eq_getElem (by omega)
      rw [hgp] at this
      exact absurd this (by simp)
    · show UpInv ht (if comp ht c pv = true then swapL l k p else l) p
      by_cases hcomp : comp ht c pv = true
      · rw [if_pos hcomp]
        have hsw := fun n => swapL_getElem? hgk hgp n
        have hkp : (k : Nat) ≠ p := by omega
        constructor
        · -- all edges except the one into p
          intro i j a b hjp hc2 ha hb
          rw [hsw i] at ha
          rw [hsw j] at hb
          by_cases hjk : j = k
          · -- the swapped edge (p, k) itself
            subst hjk
            have hip : i = p := by
              have := parent_index_of_child hc2
              rw [hp] at this
              exact (Option.some.inj this).symm
            subst hip
            rw [if_pos rfl] at ha
            rw [if_neg hkp, if_pos rfl] at hb
            exact (Option.some.inj ha) ▸ (Option.some.inj hb) ▸
              hle_of_comp_true hL hcomp
          · rw [if_neg hjp, if_neg hjk] at hb
            by_cases hip : i = p
            · rw [if_pos hip] at ha
              have h1 : hle ht pv b := hInv.1 p j pv b hjk (hip ▸ hc2) hgp hb
              exact (Option.some.inj ha) ▸
                hle_trans hL (hle_of_comp_true hL hcomp) h1
            · by_cases hik : i = k
              · subst hik
                rw [if_neg hkp, if_pos rfl] at ha
                exact (Option.some.inj ha) ▸ hInv.2 p j pv b hp hc2 hgp hb
              · rw [if_neg hip, if_neg hik] at ha
                exact hInv.1 i j a b hjk hc2 ha hb
        · -- children of p after the parent of p
          intro pp j a b hpp hc2 ha hb
          have hppp : pp < p := parent_index_lt hpp
          have hjps : p < j := by rcases hc2 with hc2 | hc2 <;> omega
          have hsw' := hsw
          rw [hsw pp, if_neg (by omega), if_neg (by omega)] at ha
          rw [hsw j, if_neg (by omega)] at hb
          have hedge : hle ht a pv :=
            hInv.1 pp p a pv (by omega) (child_of_parent_index hpp) ha hgp
          by_cases hjk : j = k
          · subst hjk
            rw [if_pos rfl] at hb
            exact (Option.some.inj hb) ▸ hedge
          · rw [if_neg hjk] at hb
            exact hle_trans hL hedge (hInv.1 p j pv b hjk hc2 hgp hb)
      · rw [if_neg hcomp]
        have hle1 : hle ht pv c :=
          hle_of_comp_false (by simpa using hcomp)
        constructor
        · intro i j a b hjp hc2 ha hb
          by_cases hjk : j = k
          · subst hjk
            have hip : i = p := by
              have := parent_index_of_child hc2
              rw [hp] at this
              exact (Option.some.inj this).symm
            subst hip
            rw [hgp] at ha
            rw [hgk] at hb
            exact (Option.some.inj ha) ▸ (Option.some.inj hb) ▸ hle1
          · exact hInv.1 i j a b hjk hc2 ha hb
        · intro pp j a b hpp hc2 ha hb
          have hedge : hle ht a pv :=
            hInv.1 pp p a pv (by omega) (child_of_parent_index hpp) ha hgp
          by_cases hjk : j = k
          · subst hjk
            rw [hgk] at hb
            exact (Option.some.inj hb) ▸ hle_trans hL hedge hle1
          · exact hle_trans hL hedge (hInv.1 p j pv b hjk hc2 hgp hb)

theorem percUpFrom_heapInv (hL : LawfulLt α) {ht : HeapType} :
    ∀ {l : List α} {k : Nat}, UpInv ht l k → HeapInv ht (percUpFrom ht l k) := by
  intro l k
  induction k using Nat.strong_induction_on generalizing l with
  | _ k ih =>
    intro hInv
    rw [percUpFrom_eq_upStep]
    rcases hp : parent_index k with _ | p
    · have hk0 : k = 0 := parent_index_none hp
      subst hk0
      intro i j a b hc ha hb
      have : j ≠ 0 := by rcases hc with hc | hc <;> omega
      exact hInv.1 i j a b this hc ha hb
    · exact ih p (parent_index_lt hp) (upStep_upInv hL hp hInv)

theorem insert_heapInv (hL : LawfulLt α) {h : BinaryHeap α} {x : α}
    (hInv : HeapInv h.heap_type h.heap) :
    HeapInv h.heap_type (h.insert x).heap := by
  unfold BinaryHeap.insert percolate_up
  apply percUpFrom_heapInv hL
  constructor
  · intro i j a b hjk hc ha hb
    have hj : j < (h.heap ++ [x]).length := lt_length_of_getElem?_some hb
    have hj' : j < h.heap.length := by
      simp only [List.length_append, List.length_cons, List.length_nil] at hj hjk
      omega
    have hi' : i < h.heap.length := by rcases hc with hc | hc <;> omega
    rw [List.getElem?_append, if_pos hi'] at ha
    rw [List.getElem?_append, if_pos hj'] at hb
    exact hInv i j a b hc ha hb
  · intro p j a b hp hc ha hb
    have hj : j < (h.heap ++ [x]).length := lt_length_of_getElem?_some hb
    have hk : (h.heap ++ [x]).length - 1 < j := by rcases hc with hc | hc <;> omega
    omega

theorem get_child_none {ht : HeapType} {l : List α} {i : Nat}
    (h : get_child ht l i = none) :
    l[i * 2 + 1]? = none ∧ l[i * 2 + 2]? = none := by
  unfold get_child child_index at h
  split at h
  next hl hr => exact ⟨hl, hr⟩
  next lv hl hr => exact absurd h (by simp)
  next rv hl hr => exact absurd h (by simp)
  next lv rv hl hr =>
    split at h <;> exact absurd h (by simp)

theorem get_child_extremal (hL : LawfulLt α) {ht : HeapType} {l : List α}
    {i ci : Nat} {c : α} (h : get_child ht l i = some (ci, c)) :
    ∀ j b, (j = i * 2 + 1 ∨ j = i * 2 + 2) → j ≠ ci →
      l[j]? = some b → hle ht c b := by
  intro j b hj hjci hb
  unfold get_child child_index at h
  split at h
  next => exact absurd h (by simp)
  next lv hl hr =>
    simp only [Option.some.injEq, Prod.mk.injEq] at h
    rcases hj with hj | hj
    · exact absurd (hj.trans h.1) hjci
    · rw [hj, hr] at hb
      exact absurd hb (by simp)
  next rv hl hr =>
    simp only [Option.some.injEq, Prod.mk.injEq] at h
    rcases hj with hj | hj
    · rw [hj, hl] at hb
      exact absurd hb (by simp)
    · exact absurd (hj.trans h.1) hjci
  next lv rv hl hr =>
    split at h <;> simp only [Option.some.injEq, Prod.mk.injEq] at h
    next hcomp =>
      rcases hj with hj | hj
      · exact absurd (hj.trans h.1) hjci
      · rw [hj, hr] at hb
        exact (Option.some.inj hb) ▸ h.2 ▸ hle_of_comp_true hL hcomp
    next hcomp =>
      rcases hj with hj | hj
      · rw [hj, hl] at hb
        exact (Option.some.inj hb) ▸ h.2 ▸
          hle_of_comp_false (Bool.not_eq_true _ ▸ hcomp)
      · exact absurd (hj.trans h.1) hjci

theorem downInv_heapInv_of_no_child {ht : HeapType} {l : List α} {k : Nat}
    (hno : ∀ j, (j = k * 2 + 1 ∨ j = k * 2 + 2) → l[j]? = none)
    (hInv : DownInv ht l k) : HeapInv ht l := by
  intro i j a b hc ha hb
  by_cases hik : i = k
  · subst hik
    rw [hno j hc] at hb
    exact absurd hb (by simp)
  · exact hInv.1 i j a b hik hc ha hb

theorem downStep_downInv (hL : LawfulLt α) {ht : HeapType} {l : List α}
    {k ci : Nat} {c : α}
    (hlen : k * 2 < l.length) (hc : get_child ht l k = some (ci, c))
    (hInv : DownInv ht l k) : DownInv ht (downStep ht l k ci c) ci := by
  obtain ⟨hchild, hci⟩ := get_child_cases hc
  have hkci : k < ci := by rcases hchild with h | h <;> omega
  have hk : k < l.length := by omega
  have hgk : l[k]? = some l[k] := List.getElem?_eq_getElem hk
  unfold downStep
  rw [hgk]
  show DownInv ht (if comp ht c l[k] = true then swapL l k ci else l) ci
  have hpci : parent_index ci = some k := parent_index_of_child hchild
  by_cases hcomp : comp ht c l[k] = true
  · rw [if_pos hcomp]
    have hsw := fun n => swapL_getElem? hgk hci n
    constructor
    · intro i j a b hik hc2 ha hb
      rw [hsw i] at ha
      rw [hsw j] at hb
      by_cases hik2 : i = k
      · subst hik2
        rw [if_neg (by omega), if_pos rfl] at ha
        by_cases hjci : j = ci
        · subst hjci
          rw [if_pos rfl] at hb
          exact (Option.some.inj ha) ▸ (Option.some.inj hb) ▸
            hle_of_comp_true hL hcomp
        · rw [if_neg hjci, if_neg (by omega)] at hb
          exact (Option.some.inj ha) ▸
            get_child_extremal hL hc j b hc2 hjci hb
      · rw [if_neg hik, if_neg hik2] at ha
        by_cases hjci : j = ci
        · subst hjci
          have : i = k := by
            have := parent_index_of_child hc2
            rw [hpci] at this
            exact (Option.some.inj this).symm
          exact absurd this hik2
        · by_cases hjk2 : j = k
          · -- the edge from the parent of k into k: second old component
            subst hjk2
            rw [if_neg hjci, if_pos rfl] at hb
            have hpk : parent_index j = some i := parent_index_of_child hc2
            exact (Option.some.inj hb) ▸ hInv.2 i ci a c hpk hchild ha hci
          · rw [if_neg hjci, if_neg hjk2] at hb
            exact hInv.1 i j a b hik2 hc2 ha hb
    · intro pp j a b hpp hc2 ha hb
      have hppk : pp = k := by
        rw [hpci] at hpp
        exact (Option.some.inj hpp).symm
      subst hppk
      have hjci : ci < j := by rcases hc2 with h | h <;> omega
      rw [hsw pp, if_neg (by omega), if_pos rfl] at ha
      rw [hsw j, if_neg (by omega), if_neg (by omega)] at hb
      exact (Option.some.inj ha) ▸ hInv.1 ci j c b (by omega) hc2 hci hb
  · rw [if_neg hcomp]
    have hle1 : hle ht l[k] c := hle_of_comp_false (Bool.not_eq_true _ ▸ hcomp)
    constructor
    · intro i j a b hik hc2 ha hb
      by_cases hik2 : i = k
      · subst hik2
        rw [hgk] at ha
        by_cases hjci : j = ci
        · subst hjci
          rw [hci] at hb
          exact (Option.some.inj ha) ▸ (Option.some.inj hb) ▸ hle1
        · exact (Option.some.inj ha) ▸
            hle_trans hL hle1 (get_child_extremal hL hc j b hc2 hjci hb)
      · exact hInv.1 i j a b hik2 hc2 ha hb
    · intro pp j a b hpp hc2 ha hb
      have hppk : pp = k := by
        rw [hpci] at hpp
        exact (Option.some.inj hpp).symm
      subst hppk
      rw [hgk] at ha
      have hjci : ci < j := by rcases hc2 with h | h <;> omega
      exact (Option.some.inj ha) ▸
        hle_trans hL hle1 (hInv.1 ci j c b (by omega) hc2 hci hb)

theorem percDownFrom_heapInv (hL : LawfulLt α) {ht : HeapType} :
    ∀ {l : List α} {k : Nat}, DownInv ht l k →
      HeapInv ht (percDownFrom ht l k) := by
  intro l k
  induction l, k using @percDownFrom.induct α _ _ ht
  next l k hlen ci c hc ih =>
    intro hInv
    rw [percDownFrom_eq, if_pos hlen]
    simp only [hc]
    exact ih (downStep_downInv hL hlen hc hInv)
  next l k hlen hc =>
    intro hInv
    rw [percDownFrom_eq, if_pos hlen]
    simp only [hc]
    obtain ⟨h1, h2⟩ := get_child_none hc
    refine downInv_heapInv_of_no_child ?_ hInv
    intro j hj
    rcases hj with hj | hj <;> subst hj <;> assumption
  next l k hlen =>
    intro hInv
    rw [percDownFrom_eq, if_neg hlen]
    refine downInv_heapInv_of_no_child ?_ hInv
    intro j hj
    have : l.length ≤ j := by rcases hj with hj | hj <;> omega
    exact List.getElem?_eq_none this

theorem pop_heapInv (hL : LawfulLt α) {h : BinaryHeap α}
    (hInv : HeapInv h.heap_type h.heap) :
    HeapInv (h.pop).2.heap_type (h.pop).2.heap := by
  obtain ⟨ht0, hp0⟩ := h
  rcases hp0 with _ | ⟨x, rest⟩
  · rw [pop_nil]
    exact hInv
  · rw [pop_cons]
    rcases hl : rest.getLast? with _ | last
    · -- rest is empty
      have : rest = [] := by simpa using hl
      subst this
      intro i j a b hc ha hb
      exact absurd hb (by simp)
    · show HeapInv ht0 (percolate_down ht0 (last :: rest.dropLast))
      apply percDownFrom_heapInv hL
      constructor
      · intro i j a b hik hc ha hb
        have hi1 : 1 ≤ i := by omega
        have hj : j < (last :: rest.dropLast).length :=
          lt_length_of_getElem?_some hb
        have hj' : j < rest.length := by
          simp only [List.length_cons, List.length_dropLast] at hj
          have : rest ≠ [] := by
            intro hcon; rw [hcon] at hl; simp at hl
          have : rest.length ≠ 0 := fun h0 => this (List.length_eq_zero.mp h0)
          omega
        have hchain_a : (x :: rest)[i]? = some a := by
          rcases i with _ | i'
          · omega
          · simp only [List.getElem?_cons_succ] at ha ⊢
            rw [List.getElem?_dropLast] at ha
            split at ha
            · exact ha
            · exact absurd ha (by simp)
        have hchain_b : (x :: rest)[j]? = some b := by
          rcases j with _ | j'
          · rcases hc with hc | hc <;> omega
          · simp only [List.getElem?_cons_succ] at hb ⊢
            rw [List.getElem?_dropLast] at hb
            split at hb
            · exact hb
            · exact absurd hb (by simp)
        exact hInv i j a b hc hchain_a hchain_b
      · intro p j a b hp hc ha hb
        have hp0 : parent_index 0 = none := rfl
        rw [hp0] at hp
        exact absurd hp (by simp)

theorem root_min (hL : LawfulLt α) {ht : HeapType} {l : List α}
    (hInv : HeapInv ht l) {r : α} (hr : l[0]? = some r) :
    ∀ (i : Nat) (a : α), l[i]? = some a → hle ht r a := by
  intro i
  induction i using Nat.strong_induction_on with
  | _ i ih =>
    intro a ha
    rcases hpi : parent_index i with _ | p
    · have h0 : i = 0 := parent_index_none hpi
      subst h0
      rw [hr] at ha
      exact (Option.some.inj ha) ▸ hle_refl hL ht r
    · have hpl : p < i := parent_index_lt hpi
      have hil : i < l.length := lt_length_of_getElem?_some ha
      have hplen : p < l.length := by omega
      have hpp : l[p]? = some l[p] := List.getElem?_eq_getElem hplen
      exact hle_trans hL (ih p hpl l[p] hpp)
        (hInv p i l[p] a (child_of_parent_index hpi) hpp ha)

theorem pop_some_head {h : BinaryHeap α} {v : α} {h' : BinaryHeap α}
    (hp : h.pop = (some v, h')) : h.heap[0]? = some v := by
  obtain ⟨ht0, hp0⟩ := h
  rcases hp0 with _ | ⟨x, rest⟩
  · rw [pop_nil] at hp
    exact absurd hp (by simp)
  · rw [pop_cons] at hp
    rcases hl : rest.getLast? with _ | last <;> rw [hl] at hp <;>
      simp only [Prod.mk.injEq, Option.some.injEq] at hp <;>
      simp [hp.1]

/-- Repeatedly `pop` until the queue reports `None`, collecting the values. -/
def popSeq (h : BinaryHeap α) : List α :=
  match hp : h.pop with
  | (some v, h') => v :: popSeq h'
  | (none, _) => []
termination_by h.size
decreasing_by
  have := pop_some_size hp
  omega

theorem popSeq_eq (h : BinaryHeap α) :
    popSeq h =
      match h.pop with
      | (some v, h') => v :: popSeq h'
      | (none, _) => [] := by
  rw [popSeq]
  split
  next v h' heq => rw [heq]
  next heq => rw [heq]

theorem popSeq_perm (h : BinaryHeap α) : (popSeq h).Perm h.heap := by
  induction h using @popSeq.induct α _ _
  next h v h' hp ih =>
    rw [popSeq_eq, hp]
    exact (ih.cons v).trans (pop_some_perm hp)
  next h h' hp =>
    rw [popSeq_eq, hp]
    have : h.heap = [] := pop_none_iff h |>.mp (by rw [hp])
    rw [this]

theorem popSeq_sorted (hL : LawfulLt α) (h : BinaryHeap α)
    (hInv : HeapInv h.heap_type h.heap) :
    List.Sorted (hle h.heap_type) (popSeq h) := by
  induction h using @popSeq.induct α _ _
  next h v h' hp ih =>
    rw [popSeq_eq, hp]
    have htEq : h'.heap_type = h.heap_type := by
      have := pop_heap_type h
      rw [hp] at this
      exact this
    have hInv' : HeapInv h'.heap_type h'.heap := by
      have := pop_heapInv hL hInv
      rw [hp] at this
      exact this
    rw [List.sorted_cons]
    refine ⟨?_, by simpa [htEq] using ih hInv'⟩
    intro w hw
    have hw1 : w ∈ h'.heap := (popSeq_perm h').mem_iff.mp hw
    have hw2 : w ∈ h.heap := (pop_some_perm hp).mem_iff.mp (List.mem_cons_of_mem v hw1)
    obtain ⟨n, hn, hwn⟩ := List.getElem_of_mem hw2
    exact root_min hL hInv (pop_some_head hp) n w
      (by rw [List.getElem?_eq_getElem hn, hwn])
  next h h' hp =>
    rw [popSeq_eq, hp]
    exact List.sorted_nil

theorem foldl_insert_heap_type (l : List α) (h0 : BinaryHeap α) :
    (l.foldl (fun h x => h.insert x) h0).heap_type = h0.heap_type := by
  induction l generalizing h0 with
  | nil => rfl
  | cons x xs ih => simpa using ih (h0.insert x)

theorem foldl_insert_perm (l : List α) (h0 : BinaryHeap α) :
    (l.foldl (fun h x => h.insert x) h0).heap.Perm (l ++ h0.heap) := by
  induction l generalizing h0 with
  | nil => simp
  | cons x xs ih =>
    have h1 := ih (h0.insert x)
    have h2 : (xs ++ (h0.insert x).heap).Perm (xs ++ x :: h0.heap) :=
      List.Perm.append_left xs (insert_heap_perm h0 x)
    have h3 : (xs ++ x :: h0.heap).Perm (x :: (xs ++ h0.heap)) := List.perm_middle
    simpa using (h1.trans h2).trans h3

theorem foldl_insert_heapInv (hL : LawfulLt α) (l : List α) (h0 : BinaryHeap α)
    (hInv : HeapInv h0.heap_type h0.heap) :
    HeapInv (l.foldl (fun h x => h.insert x) h0).heap_type
      (l.foldl (fun h x => h.insert x) h0).heap := by
  induction l generalizing h0 with
  | nil => exact hInv
  | cons x xs ih =>
    have h1 : HeapInv (h0.insert x).heap_type (h0.insert x).heap := by
      have := insert_heapInv hL (h := h0) (x := x) hInv
      simpa [insert_heap_type] using this
    simpa using ih (h0.insert x) h1

theorem new_heapInv (ht : HeapType) : HeapInv ht (BinaryHeap.new ht : BinaryHeap α).heap := by
  intro i j a b hc ha hb
  exact absurd hb (by simp [BinaryHeap.new])

theorem peek_none_iff (h : BinaryHeap α) : h.peek = none ↔ h.heap = [] := by
  unfold BinaryHeap.peek
  rcases h.heap with _ | ⟨x, rest⟩ <;> simp

theorem peek_mem_and_min (hL : LawfulLt α) {h : BinaryHeap α}
    (hInv : HeapInv h.heap_type h.heap) {v : α} (hv : h.peek = some v) :
    v ∈ h.heap ∧ ∀ y ∈ h.heap, hle h.heap_type v y := by
  unfold BinaryHeap.peek at hv
  constructor
  · exact List.getElem?_mem hv
  · intro y hy
    obtain ⟨n, hn, hyn⟩ := List.getElem_of_mem hy
    exact root_min hL hInv hv n y (by rw [List.getElem?_eq_getElem hn, hyn])

/-- An abstract client operation on the heap: `insert` or `pop`. -/
inductive HeapOp (β : Type) where
  | ins (x : β)
  | pop

/-- Run a sequence of heap operations, discarding popped values. -/
def runOps (h : BinaryHeap α) : List (HeapOp α) → BinaryHeap α
  | [] => h
  | HeapOp.ins x :: ops => runOps (h.insert x) ops
  | HeapOp.pop :: ops => runOps (h.pop).2 ops

theorem runOps_heap_type (h : BinaryHeap α) (ops : List (HeapOp α)) :
    (runOps h ops).heap_type = h.heap_type := by
  induction ops generalizing h with
  | nil => rfl
  | cons op ops ih =>
    rcases op with x | _
    · simpa [runOps] using ih (h.insert x)
    · simpa [runOps, pop_heap_type] using ih (h.pop).2

theorem runOps_heapInv (hL : LawfulLt α) (h : BinaryHeap α)
    (ops : List (HeapOp α)) (hInv : HeapInv h.heap_type h.heap) :
    HeapInv (runOps h ops).heap_type (runOps h ops).heap := by
  induction ops generalizing h with
  | nil => exact hInv
  | cons op ops ih =>
    rcases op with x | _
    · have h1 : HeapInv (h.insert x).heap_type (h.insert x).heap := by
        have := insert_heapInv hL (h := h) (x := x) hInv
        simpa [insert_heap_type] using this
      simpa [runOps] using ih (h.insert x) h1
    · simpa [runOps] using ih (h.pop).2 (pop_heapInv hL hInv)

theorem lawfulLt_linearOrder (β : Type) [LinearOrder β] : LawfulLt β := by
  refine ⟨fun a => lt_irrefl a, fun h => lt_asymm h, ?_⟩
  intro a b c h1 h2
  rw [not_lt] at h1 h2 ⊢
  exact le_trans h1 h2

theorem hle_min_iff {β : Type} [LinearOrder β] {a b : β} :
    hle HeapType.Min a b ↔ a ≤ b := by
  simp [hle, comp, not_lt]

theorem hle_max_iff {β : Type} [LinearOrder β] {a b : β} :
    hle HeapType.Max a b ↔ b ≤ a := by
  simp [hle, comp, not_lt]

theorem popSeq_foldl_perm {β : Type} [LinearOrder β] (ht : HeapType) (l : List β) :
    (popSeq (l.foldl (fun h x => h.insert x) (BinaryHeap.new ht))).Perm l := by
  have h1 := popSeq_perm (l.foldl (fun h x => h.insert x) (BinaryHeap.new ht))
  have h2 := foldl_insert_perm l (BinaryHeap.new ht)
  simpa [BinaryHeap.new] using h1.trans h2

theorem popSeq_foldl_sorted {β : Type} [LinearOrder β] (ht : HeapType) (l : List β) :
    List.Sorted (hle ht) (popSeq (l.foldl (fun h x => h.insert x) (BinaryHeap.new ht))) := by
  have hL := lawfulLt_linearOrder β
  have hInv := foldl_insert_heapInv hL l (BinaryHeap.new ht) (new_heapInv ht)
  have hty : (l.foldl (fun h x => h.insert x) (BinaryHeap.new ht)).heap_type = ht :=
    foldl_insert_heap_type l (BinaryHeap.new ht)
  have := popSeq_sorted hL (l.foldl (fun h x => h.insert x) (BinaryHeap.new ht)) hInv
  rwa [hty] at this

end Heap

section HeapClaims
open Heap

/-- C2: for every finite list of comparable values inserted in any order into a
Min-policy `BinaryHeap`, popping until exhaustion returns exactly those values
(a permutation) in non-decreasing order; for a Max-policy heap, in
non-increasing order. -/
theorem heap_sort_correct {β : Type} [LinearOrder β] (l : List β) :
    ((popSeq (l.foldl (fun h x => h.insert x) (BinaryHeap.new HeapType.Min))).Perm l ∧
      List.Sorted (· ≤ ·)
        (popSeq (l.foldl (fun h x => h.insert x) (BinaryHeap.new HeapType.Min)))) ∧
    ((popSeq (l.foldl (fun h x => h.insert x) (BinaryHeap.new HeapType.Max))).Perm l ∧
      List.Sorted (· ≥ ·)
        (popSeq (l.foldl (fun h x => h.insert x) (BinaryHeap.new HeapType.Max)))) := by
  refine ⟨⟨popSeq_foldl_perm HeapType.Min l, ?_⟩, ⟨popSeq_foldl_perm HeapType.Max l, ?_⟩⟩
  · exact (popSeq_foldl_sorted HeapType.Min l).imp (fun h => hle_min_iff.mp h)
  · exact (popSeq_foldl_sorted HeapType.Max l).imp (fun h => hle_max_iff.mp h)

/-- C3: after any finite sequence of inserts and pops starting from an empty
heap, `peek` returns `none` exactly when the heap is empty, and otherwise
returns a stored element that is policy-extremal (a minimum under Min, a
maximum under Max) among the currently stored elements. -/
theorem peek_policy_extremal {β : Type} [LinearOrder β] (ht : HeapType)
    (ops : List (HeapOp β)) :
    ((runOps (BinaryHeap.new ht) ops).peek = none ↔
      (runOps (BinaryHeap.new ht) ops).heap = []) ∧
    ∀ v, (runOps (BinaryHeap.new ht) ops).peek = some v →
      v ∈ (runOps (BinaryHeap.new ht) ops).heap ∧
      ∀ y ∈ (runOps (BinaryHeap.new ht) ops).heap,
        (match ht with
         | HeapType.Min => v ≤ y
         | HeapType.Max => y ≤ v) := by
  have hL := lawfulLt_linearOrder β
  have hInv := runOps_heapInv hL (BinaryHeap.new ht) ops (new_heapInv ht)
  have hty : (runOps (BinaryHeap.new ht) ops).heap_type = ht :=
    runOps_heap_type (BinaryHeap.new ht) ops
  refine ⟨peek_none_iff _, ?_⟩
  intro v hv
  obtain ⟨hmem, hall⟩ := peek_mem_and_min hL hInv hv
  refine ⟨hmem, ?_⟩
  intro y hy
  have := hall y hy
  rw [hty] at this
  cases ht
  · exact hle_min_iff.mp this
  · exact hle_max_iff.mp this

/-- Witness for C3 at a concrete run: insert 5 into an empty Min-heap. -/
theorem peek_policy_extremal_witness :
    (runOps (BinaryHeap.new HeapType.Min) [HeapOp.ins (5 : Nat)]).peek = some 5 ∧
    5 ∈ (runOps (BinaryHeap.new HeapType.Min) [HeapOp.ins (5 : Nat)]).heap := by
  have hpeek : (runOps (BinaryHeap.new HeapType.Min) [HeapOp.ins (5 : Nat)]).peek = some 5 := by
    rw [runOps, runOps]
    unfold BinaryHeap.insert percolate_up BinaryHeap.new
    rw [percUpFrom_eq_upStep]
    rfl
  exact ⟨hpeek,
    ((peek_policy_extremal HeapType.Min [HeapOp.ins (5 : Nat)]).2 5 hpeek).1⟩

/-- C8: `parent_index 0` is `none`; for `i ≥ 1`, `parent_index i` is
`some ((i-1)/2)`; and `parent_index` inverts `child_index`, which places the
children of `i` at `2i+1` and `2i+2`. -/
theorem parent_child_index_spec :
    parent_index 0 = none ∧
    (∀ i : Nat, 1 ≤ i → parent_index i = some ((i - 1) / 2)) ∧
    (∀ (i : Nat) (s : ChildSide),
      child_index i s = (match s with
        | ChildSide.Left => 2 * i + 1
        | ChildSide.Right => 2 * i + 2) ∧
      parent_index (child_index i s) = some i) := by
  refine ⟨rfl, ?_, ?_⟩
  · intro i hi
    unfold parent_index
    rw [if_neg (by omega)]
    by_cases h2 : i % 2 = 1
    · rw [if_pos h2]
      congr 1
      omega
    · rw [if_neg h2]
      congr 1
      omega
  · intro i s
    rcases s with _ | _
    · exact ⟨by unfold child_index; ring_nf, parent_index_of_child (Or.inl rfl)⟩
    · exact ⟨by unfold child_index; ring_nf, parent_index_of_child (Or.inr rfl)⟩

/-- Witness for C8 at the concrete index 5. -/
theorem parent_child_index_spec_witness :
    1 ≤ 5 ∧ parent_index 5 = some 2 := by
  refine ⟨by decide, ?_⟩
  have := parent_child_index_spec.2.1 5 (by decide)
  simpa using this

end HeapClaims

namespace Huffman

open Heap

/-- The `HuffmanNode` from huffman.rs.  `Option<Box<HuffmanNode>>` becomes
`Option HuffmanNode`; the `u32` frequency becomes `Nat`, reduced mod `2^32`
at the one place the source can overflow (internal-node creation). -/
inductive HuffmanNode : Type where
  | mk (ch : Option Char) (f : Nat) (l : Option HuffmanNode) (r : Option HuffmanNode)

def HuffmanNode.ch : HuffmanNode → Option Char
  | HuffmanNode.mk c _ _ _ => c

def HuffmanNode.f : HuffmanNode → Nat
  | HuffmanNode.mk _ fr _ _ => fr

/-- The `HuffmanNode::single` from huffman.rs. -/
def HuffmanNode.single (ch : Option Char) (f : Nat) : HuffmanNode :=
  HuffmanNode.mk ch f none none

/-- The `Ord`/`PartialOrd` impls from huffman.rs: comparison is by frequency
only. -/
instance : LT HuffmanNode :=
  ⟨fun a b => a.f < b.f⟩

instance : DecidableRel ((· < ·) : HuffmanNode → HuffmanNode → Prop) :=
  fun a b => inferInstanceAs (Decidable (a.f < b.f))

theorem lawfulLt_huffmanNode : LawfulLt HuffmanNode := by
  refine ⟨fun a => ?_, fun {a b} h => ?_, fun {a b c} h1 h2 => ?_⟩
  · exact Nat.lt_irrefl a.f
  · exact Nat.lt_asymm h
  · show ¬ c.f < a.f
    have h1' : ¬ b.f < a.f := h1
    have h2' : ¬ c.f < b.f := h2
    omega

/-- One step of the frequency fold in `build_huffman_tree` (huffman.rs lines
56-62): `*acc.entry(c).or_insert(0u16) += 1`, with `u16` wrap-around. -/
def addChar (acc : List (Char × Nat)) (c : Char) : List (Char × Nat) :=
  if acc.any (fun p => p.1 == c) then
    acc.map (fun p => if p.1 == c then (p.1, (p.2 + 1) % 65536) else p)
  else
    acc ++ [(c, 1 % 65536)]

/-- The frequency map of `build_huffman_tree` as an association list, keyed
in first-occurrence order.  `HashMap` iteration order is arbitrary, so every
order-sensitive fact is proved for arbitrary pair lists. -/
def charFreqs (content : List Char) : List (Char × Nat) :=
  content.foldl addChar []

/-- The second fold of `build_huffman_tree`: one leaf per `(symbol, count)`
pair is inserted into a Min `BinaryHeap`; `*f as u32` is the identity on the
`Nat` value. -/
def initPQ (pairs : List (Char × Nat)) : BinaryHeap HuffmanNode :=
  pairs.foldl (fun pq cf => pq.insert (HuffmanNode.single (some cf.1) cf.2))
    BinaryHeap.default

/-- The merge loop of `build_huffman_tree`: while more than one node remains,
pop two minima and reinsert their combination.  The `unwrap`s cannot fail
because the loop requires size > 1; the `none` arms model the panic. -/
def combineLoop (pq : BinaryHeap HuffmanNode) : BinaryHeap HuffmanNode :=
  if 1 < pq.size then
    match hl : pq.pop with
    | (some l, pq1) =>
      match hr : pq1.pop with
      | (some r, pq2) =>
          combineLoop
            (pq2.insert (HuffmanNode.mk none ((l.f + r.f) % 4294967296) (some l) (some r)))
      | (none, _) => pq
    | (none, _) => pq
  else pq
termination_by pq.size
decreasing_by
  have h1 := pop_some_size hl
  have h2 := pop_some_size hr
  have h3 := insert_size pq2 (HuffmanNode.mk none ((l.f + r.f) % 4294967296) (some l) (some r))
  omega

/-- The `build_huffman_tree` from huffman.rs. -/
def build_huffman_tree (content : List Char) : BinaryHeap HuffmanNode :=
  combineLoop (initPQ (charFreqs content))

/-- The nested `recursive_encoding` function of `build_huffman_encoding`:
walk the tree and record `(symbol, code)` at every node carrying a symbol,
appending `'0'` for a left descent and `'1'` for a right descent.  The
mutated `HashMap` is modelled by the insertion-ordered list of entries. -/
def recursive_encoding : HuffmanNode → List Char → List (Char × List Char)
  | HuffmanNode.mk (some ch) _ _ _, s => [(ch, s)]
  | HuffmanNode.mk none _ tl tr, s =>
      (match tl with
       | some t => recursive_encoding t (s ++ ['0'])
       | none => []) ++
      (match tr with
       | some t => recursive_encoding t (s ++ ['1'])
       | none => [])

/-- The `HashMap::get` on the recorded entries: the last insert for a key wins. -/
def mapLookup (entries : List (Char × List Char)) (c : Char) : Option (List Char) :=
  (entries.reverse.find? (fun p => p.1 == c)).map (fun p => p.2)

/-- The `build_huffman_encoding` from huffman.rs.  Returns the code table
together with the untouched clone of the heap holding the tree; `None` when
the heap is empty.  The inner `none` arm models the `unwrap` of `pop`. -/
def build_huffman_encoding (content : List Char) :
    Option (List (Char × List Char) × BinaryHeap HuffmanNode) :=
  let pq := build_huffman_tree content
  if pq.size = 0 then none
  else
    match (pq.pop).1 with
    | some root => some (recursive_encoding root [], pq)
    | none => none

/-- The concatenation fold of `encode_string` (huffman.rs lines 132-135):
`acc.push_str(encoding_map.get(&c).unwrap())`, the `unwrap` panic modelled
by `none`. -/
def encodeWith (encoding_map : List (Char × List Char)) (input : List Char) :
    Option (List Char) :=
  input.foldl (fun acc c =>
    match acc, mapLookup encoding_map c with
    | some a, some code => some (a ++ code)
    | _, _ => none) (some [])

/-- The `encode_string` from huffman.rs: build the table for the input, then
concatenate the per-character codes.  The `unwrap` of
`build_huffman_encoding` and of each table lookup is modelled by `none`. -/
def encode_string (input_content : List Char) : Option (List Char) :=
  match build_huffman_encoding input_content with
  | some (encoding_map, _) => encodeWith encoding_map input_content
  | none => none

/-- Structural size of a tree, used for induction over the nested
inductive. -/
def size : HuffmanNode → Nat
  | HuffmanNode.mk _ _ tl tr =>
      1 + (match tl with | some t => size t | none => 0)
        + (match tr with | some t => size t | none => 0)

theorem node_strong_ind (P : HuffmanNode → Prop)
    (h : ∀ t, (∀ u, size u < size t → P u) → P t) : ∀ t, P t := by
  have hgen : ∀ n, ∀ t, size t ≤ n → P t := by
    intro n
    induction n with
    | zero =>
      intro t ht
      obtain ⟨c, f, tl, tr⟩ := t
      rcases tl with _ | a <;> rcases tr with _ | b <;> simp [size] at ht
    | succ n ih =>
      intro t ht
      refine h t ?_
      intro u hu
      exact ih u (by omega)
  intro t
  exact hgen (size t) t le_rfl

/-- The multiset of symbols recorded by `recursive_encoding`: the walk stops
at any node carrying a symbol. -/
def chars : HuffmanNode → List Char
  | HuffmanNode.mk (some c) _ _ _ => [c]
  | HuffmanNode.mk none _ tl tr =>
      (match tl with
       | some t => chars t
       | none => []) ++
      (match tr with
       | some t => chars t
       | none => [])

theorem mem_recursive_encoding (c : Char) :
    ∀ t, ∀ s, c ∈ chars t → ∃ code, (c, code) ∈ recursive_encoding t s := by
  refine node_strong_ind _ ?_
  intro t ih s hc
  obtain ⟨ch, f, tl, tr⟩ := t
  rcases ch with _ | c0
  · rcases tl with _ | a <;> rcases tr with _ | b <;>
      simp only [chars, recursive_encoding, List.append_nil, List.nil_append,
        List.mem_append] at hc ⊢
    · exact absurd hc (by simp)
    · obtain ⟨code, hcode⟩ := ih b (by simp [size]; try omega) (s ++ ['1']) hc
      exact ⟨code, hcode⟩
    · obtain ⟨code, hcode⟩ := ih a (by simp [size]; try omega) (s ++ ['0']) hc
      exact ⟨code, hcode⟩
    · rcases hc with hc | hc
      · obtain ⟨code, hcode⟩ := ih a (by simp [size]; try omega) (s ++ ['0']) hc
        exact ⟨code, Or.inl hcode⟩
      · obtain ⟨code, hcode⟩ := ih b (by simp [size]; try omega) (s ++ ['1']) hc
        exact ⟨code, Or.inr hcode⟩
  · simp only [chars, List.mem_singleton] at hc
    subst hc
    exact ⟨s, by simp [recursive_encoding]⟩

theorem recursive_encoding_extends :
    ∀ t, ∀ s, ∀ e ∈ recursive_encoding t s, s <+: e.2 := by
  refine node_strong_ind _ ?_
  intro t ih s e he
  obtain ⟨ch, f, tl, tr⟩ := t
  rcases ch with _ | c0
  · rcases tl with _ | a <;> rcases tr with _ | b <;>
      simp only [recursive_encoding, List.append_nil, List.nil_append,
        List.mem_append] at he
    · exact absurd he (by simp)
    · exact (List.prefix_append s ['1']).trans (ih b (by simp [size]; try omega) _ e he)
    · exact (List.prefix_append s ['0']).trans (ih a (by simp [size]; try omega) _ e he)
    · rcases he with he | he
      · exact (List.prefix_append s ['0']).trans (ih a (by simp [size]; try omega) _ e he)
      · exact (List.prefix_append s ['1']).trans (ih b (by simp [size]; try omega) _ e he)
  · simp only [recursive_encoding, List.mem_singleton] at he
    subst he
    exact List.prefix_rfl

/-- Two entries are prefix-incomparable. -/
def Incomp (e1 e2 : Char × List Char) : Prop :=
  ¬ e1.2 <+: e2.2 ∧ ¬ e2.2 <+: e1.2

theorem incomp_symm : Symmetric Incomp := by
  intro e1 e2 h
  exact ⟨h.2, h.1⟩

theorem prefix_incomp {s a b : List Char} {x y : Char} (hxy : x ≠ y)
    (ha : s ++ [x] <+: a) (hb : s ++ [y] <+: b) : ¬ a <+: b := by
  intro hab
  have h1 : s ++ [x] <+: b := ha.trans hab
  have h2 := List.prefix_or_prefix_of_prefix h1 hb
  have hlen : (s ++ [x]).length = (s ++ [y]).length := by simp
  have heq : s ++ [x] = s ++ [y] := by
    rcases h2 with h2 | h2
    · exact List.IsPrefix.eq_of_length h2 hlen
    · exact (List.IsPrefix.eq_of_length h2 hlen.symm).symm
  simp at heq
  exact hxy heq

theorem recursive_encoding_pairwise :
    ∀ t, ∀ s, List.Pairwise Incomp (recursive_encoding t s) := by
  refine node_strong_ind _ ?_
  intro t ih s
  obtain ⟨ch, f, tl, tr⟩ := t
  rcases ch with _ | c0
  · rcases tl with _ | a <;> rcases tr with _ | b <;>
      simp only [recursive_encoding, List.append_nil, List.nil_append]
    · exact List.Pairwise.nil
    · exact ih b (by simp [size]; try omega) (s ++ ['1'])
    · exact ih a (by simp [size]; try omega) (s ++ ['0'])
    · rw [List.pairwise_append]
      refine ⟨ih a (by simp [size]; try omega) _, ih b (by simp [size]; try omega) _, ?_⟩
      intro e1 he1 e2 he2
      have h1 : s ++ ['0'] <+: e1.2 :=
        recursive_encoding_extends a _ e1 he1
      have h2 : s ++ ['1'] <+: e2.2 :=
        recursive_encoding_extends b _ e2 he2
      exact ⟨prefix_incomp (by decide) h1 h2, prefix_incomp (by decide) h2 h1⟩
  · simp [recursive_encoding]

/-- Invariant of the frequency fold: `acc` holds exactly the symbols of the
processed prefix, each with its wrapped count, one entry per symbol. -/
def GoodAcc (processed : List Char) (acc : List (Char × Nat)) : Prop :=
  (∀ c f, (c, f) ∈ acc → c ∈ processed ∧ f = processed.count c % 65536) ∧
  (∀ c ∈ processed, ∃ f, (c, f) ∈ acc) ∧
  (acc.map Prod.fst).Nodup

theorem addChar_good {processed : List Char} {acc : List (Char × Nat)} (c : Char)
    (h : GoodAcc processed acc) : GoodAcc (processed ++ [c]) (addChar acc c) := by
  obtain ⟨h1, h2, h3⟩ := h
  have hcount_ne : ∀ c' : Char, c' ≠ c →
      (processed ++ [c]).count c' = processed.count c' := by
    intro c' hne
    simp [List.count_append, List.count_singleton, hne]
  have hcount_eq : (processed ++ [c]).count c = processed.count c + 1 := by
    simp [List.count_append, List.count_singleton]
  unfold addChar
  by_cases hmem : acc.any (fun p => p.1 == c) = true
  · rw [if_pos hmem]
    refine ⟨?_, ?_, ?_⟩
    · intro c' f' hm
      obtain ⟨p, hp, hgp⟩ := List.mem_map.mp hm
      by_cases hpc : p.1 = c
      · rw [if_pos (by simpa using hpc)] at hgp
        obtain ⟨hc', hf'⟩ := Prod.mk.inj hgp
        obtain ⟨hmem1, hcnt1⟩ := h1 p.1 p.2 (by simpa using hp)
        subst hc'
        constructor
        · simp [hpc]
        · rw [← hf', hcnt1, hpc, hcount_eq]
          omega
      · rw [if_neg (by simpa using hpc)] at hgp
        obtain ⟨hmem1, hcnt1⟩ := h1 p.1 p.2 (by simpa using hp)
        have hc' : p.1 = c' := by rw [hgp]
        have hf2 : p.2 = f' := by rw [hgp]
        subst hc'
        refine ⟨by simp [hmem1], ?_⟩
        rw [← hf2, hcnt1, hcount_ne p.1 hpc]
    · intro c' hc'
      rcases List.mem_append.mp hc' with hc' | hc'
      · obtain ⟨f, hf⟩ := h2 c' hc'
        by_cases hpc : c' = c
        · refine ⟨(f + 1) % 65536, List.mem_map.mpr ⟨(c', f), hf, ?_⟩⟩
          rw [if_pos (by simpa using hpc)]
        · refine ⟨f, List.mem_map.mpr ⟨(c', f), hf, ?_⟩⟩
          rw [if_neg (by simpa using hpc)]
      · simp only [List.mem_singleton] at hc'
        subst hc'
        obtain ⟨p, hp, hpc⟩ := List.any_eq_true.mp hmem
        refine ⟨(p.2 + 1) % 65536, List.mem_map.mpr ⟨p, hp, ?_⟩⟩
        rw [if_pos hpc]
        have : p.1 = c' := by simpa using hpc
        rw [this]
    · have : (acc.map (fun p => if p.1 == c then (p.1, (p.2 + 1) % 65536) else p)).map
          Prod.fst = acc.map Prod.fst := by
        rw [List.map_map]
        apply List.map_congr_left
        intro p hp
        by_cases hpc : p.1 = c
        · simp [hpc]
        · simp [hpc]
      rw [this]
      exact h3
  · rw [if_neg hmem]
    have hnotin : c ∉ processed := by
      intro hcp
      obtain ⟨f, hf⟩ := h2 c hcp
      exact hmem (List.any_eq_true.mpr ⟨(c, f), hf, by simp⟩)
    have hcnt0 : processed.count c = 0 := List.count_eq_zero.mpr hnotin
    refine ⟨?_, ?_, ?_⟩
    · intro c' f' hm
      rcases List.mem_append.mp hm with hm | hm
      · obtain ⟨hmem1, hcnt1⟩ := h1 c' f' hm
        have hne : c' ≠ c := fun he => hnotin (he ▸ hmem1)
        exact ⟨by simp [hmem1], by rw [hcnt1, hcount_ne c' hne]⟩
      · simp only [List.mem_singleton, Prod.mk.injEq] at hm
        obtain ⟨hc', hf'⟩ := hm
        subst hc'
        constructor
        · simp
        · rw [hf', hcount_eq, hcnt0]
    · intro c' hc'
      rcases List.mem_append.mp hc' with hc' | hc'
      · obtain ⟨f, hf⟩ := h2 c' hc'
        exact ⟨f, List.mem_append.mpr (Or.inl hf)⟩
      · simp only [List.mem_singleton] at hc'
        subst hc'
        exact ⟨1 % 65536, List.mem_append.mpr (Or.inr (by simp))⟩
    · rw [List.map_append]
      simp only [List.map_cons, List.map_nil]
      rw [List.nodup_append]
      refine ⟨h3, by simp, ?_⟩
      intro a ha
      simp only [List.mem_singleton]
      intro hb
      subst hb
      obtain ⟨p, hp, hpc⟩ := List.mem_map.mp ha
      exact hmem (List.any_eq_true.mpr ⟨p, hp, by simp [hpc]⟩)

theorem foldl_addChar_good :
    ∀ (rest processed : List Char) (acc : List (Char × Nat)),
      GoodAcc processed acc →
      GoodAcc (processed ++ rest) (rest.foldl addChar acc) := by
  intro rest
  induction rest with
  | nil => intro processed acc h; simpa using h
  | cons c cs ih =>
    intro processed acc h
    have h2 := addChar_good c h
    have := ih (processed ++ [c]) (addChar acc c) h2
    simpa using this

theorem charFreqs_good (content : List Char) : GoodAcc content (charFreqs content) := by
  have h0 : GoodAcc [] [] := by
    refine ⟨by simp, by simp, by simp⟩
  have := foldl_addChar_good content [] [] h0
  simpa [charFreqs] using this

theorem combineLoop_eq (pq : BinaryHeap HuffmanNode) :
    combineLoop pq =
      if 1 < pq.size then
        match pq.pop with
        | (some l, pq1) =>
          (match pq1.pop with
           | (some r, pq2) =>
               combineLoop
                 (pq2.insert (HuffmanNode.mk none ((l.f + r.f) % 4294967296) (some l) (some r)))
           | (none, _) => pq)
        | (none, _) => pq
      else pq := by
  rw [combineLoop]
  split
  next hguard =>
    split
    next l pq1 heq1 =>
      simp only [heq1]
      split
      next r pq2 heq2 => simp only [heq2]
      next x heq2 => simp only [heq2]
    next x heq1 => simp only [heq1]
  next hguard => rfl

theorem initPQ_perm (pairs : List (Char × Nat)) :
    (initPQ pairs).heap.Perm
      (pairs.map (fun cf => HuffmanNode.single (some cf.1) cf.2)) := by
  unfold initPQ
  rw [show (pairs.foldl (fun pq cf => pq.insert (HuffmanNode.single (some cf.1) cf.2))
        BinaryHeap.default) =
      ((pairs.map (fun cf => HuffmanNode.single (some cf.1) cf.2)).foldl
        (fun pq x => pq.insert x) BinaryHeap.default) from (List.foldl_map _ _ _ _).symm]
  have := foldl_insert_perm
    (pairs.map (fun cf => HuffmanNode.single (some cf.1) cf.2)) BinaryHeap.default
  simpa [BinaryHeap.default] using this

theorem initPQ_size (pairs : List (Char × Nat)) :
    (initPQ pairs).size = pairs.length := by
  have := (initPQ_perm pairs).length_eq
  simpa [BinaryHeap.size] using this

theorem combineLoop_size {pq : BinaryHeap HuffmanNode} (h : 1 ≤ pq.size) :
    (combineLoop pq).size = 1 := by
  induction pq using combineLoop.induct
  next pq hguard l pq1 hl r pq2 hr ih =>
    rw [combineLoop_eq, if_pos hguard]
    simp only [hl, hr]
    apply ih
    have h1 := pop_some_size hl
    have h2 := pop_some_size hr
    have h3 := insert_size pq2
      (HuffmanNode.mk none ((l.f + r.f) % 4294967296) (some l) (some r))
    omega
  next pq hguard l pq1 hl s2 hr =>
    exfalso
    have h1 := pop_some_size hl
    have hne : pq1.heap ≠ [] := by
      intro h0
      have : pq1.size = 0 := by simp [BinaryHeap.size, h0]
      omega
    obtain ⟨v, h', hp⟩ := pop_of_ne_nil hne
    rw [hp] at hr
    simp at hr
  next pq hguard s2 hl =>
    exfalso
    have hne : pq.heap ≠ [] := by
      intro h0
      have : pq.size = 0 := by simp [BinaryHeap.size, h0]
      omega
    obtain ⟨v, h', hp⟩ := pop_of_ne_nil hne
    rw [hp] at hl
    simp at hl
  next pq hguard =>
    rw [combineLoop_eq, if_neg hguard]
    omega

theorem chars_merge (f : Nat) (l r : HuffmanNode) :
    chars (HuffmanNode.mk none f (some l) (some r)) = chars l ++ chars r := rfl

theorem chars_single (c : Char) (f : Nat) :
    chars (HuffmanNode.single (some c) f) = [c] := rfl

/-- Whether some tree currently in the heap carries symbol `c`. -/
def heapHasChar (pq : BinaryHeap HuffmanNode) (c : Char) : Prop :=
  ∃ t ∈ pq.heap, c ∈ chars t

theorem heapHasChar_of_perm {l1 l2 : List HuffmanNode} (hp : l1.Perm l2) (c : Char) :
    (∃ t ∈ l1, c ∈ chars t) ↔ ∃ t ∈ l2, c ∈ chars t := by
  constructor <;> rintro ⟨t, ht, hc⟩
  · exact ⟨t, hp.mem_iff.mp ht, hc⟩
  · exact ⟨t, hp.mem_iff.mpr ht, hc⟩

theorem hasChar_cons (x : HuffmanNode) (hs : List HuffmanNode) (c : Char) :
    (∃ t ∈ x :: hs, c ∈ chars t) ↔ c ∈ chars x ∨ ∃ t ∈ hs, c ∈ chars t := by
  constructor
  · rintro ⟨t, ht, hc⟩
    rcases List.mem_cons.mp ht with ht | ht
    · exact Or.inl (ht ▸ hc)
    · exact Or.inr ⟨t, ht, hc⟩
  · rintro (hc | ⟨t, ht, hc⟩)
    · exact ⟨x, List.mem_cons_self x hs, hc⟩
    · exact ⟨t, List.mem_cons_of_mem x ht, hc⟩

theorem combineLoop_hasChar (c : Char) (pq : BinaryHeap HuffmanNode) :
    heapHasChar (combineLoop pq) c ↔ heapHasChar pq c := by
  induction pq using combineLoop.induct
  next pq hguard l pq1 hl r pq2 hr ih =>
    rw [combineLoop_eq, if_pos hguard]
    simp only [hl, hr]
    rw [ih]
    unfold heapHasChar
    have e1 := heapHasChar_of_perm (pop_some_perm hl) c
    have e2 := heapHasChar_of_perm (pop_some_perm hr) c
    rw [hasChar_cons] at e1 e2
    rw [heapHasChar_of_perm (insert_heap_perm pq2 _) c, hasChar_cons,
      chars_merge, List.mem_append, ← e1, ← e2]
    tauto
  next pq hguard l pq1 hl s2 hr =>
    rw [combineLoop_eq, if_pos hguard]
    simp only [hl, hr]
  next pq hguard s2 hl =>
    rw [combineLoop_eq, if_pos hguard]
    simp only [hl]
  next pq hguard =>
    rw [combineLoop_eq, if_neg hguard]

theorem initPQ_hasChar (pairs : List (Char × Nat)) (c : Char) :
    heapHasChar (initPQ pairs) c ↔ c ∈ pairs.map Prod.fst := by
  unfold heapHasChar
  rw [heapHasChar_of_perm (initPQ_perm pairs) c]
  constructor
  · rintro ⟨t, ht, hc⟩
    obtain ⟨cf, hcf, hcft⟩ := List.mem_map.mp ht
    rw [← hcft, chars_single] at hc
    simp only [List.mem_singleton] at hc
    subst hc
    exact List.mem_map.mpr ⟨cf, hcf, rfl⟩
  · intro hc
    obtain ⟨cf, hcf, hcfc⟩ := List.mem_map.mp hc
    exact ⟨HuffmanNode.single (some cf.1) cf.2,
      List.mem_map.mpr ⟨cf, hcf, rfl⟩, by rw [chars_single, hcfc]; simp⟩

theorem mem_charFreqs_keys {content : List Char} {c : Char} :
    c ∈ (charFreqs content).map Prod.fst ↔ c ∈ content := by
  obtain ⟨h1, h2, h3⟩ := charFreqs_good content
  constructor
  · intro hc
    obtain ⟨cf, hcf, hcfc⟩ := List.mem_map.mp hc
    obtain ⟨hm, _⟩ := h1 cf.1 cf.2 (by simpa using hcf)
    exact hcfc ▸ hm
  · intro hc
    obtain ⟨f, hf⟩ := h2 c hc
    exact List.mem_map.mpr ⟨(c, f), hf, rfl⟩

theorem build_tree_size {content : List Char} (hne : content ≠ []) :
    (build_huffman_tree content).size = 1 := by
  apply combineLoop_size
  rw [initPQ_size]
  obtain ⟨c, hc⟩ := List.exists_mem_of_ne_nil content hne
  obtain ⟨f, hf⟩ := (charFreqs_good content).2.1 c hc
  have : charFreqs content ≠ [] := by
    intro h0
    rw [h0] at hf
    simp at hf
  have := List.length_pos.mpr this
  omega

theorem mem_chars_root {content : List Char} {root : HuffmanNode}
    {pq' : BinaryHeap HuffmanNode}
    (hpop : (build_huffman_tree content).pop = (some root, pq'))
    {c : Char} (hc : c ∈ content) : c ∈ chars root := by
  have hne : content ≠ [] := by
    intro h0
    rw [h0] at hc
    simp at hc
  have hsz := build_tree_size hne
  have hsz' := pop_some_size hpop
  have hempty : pq'.heap = [] := by
    have : pq'.size = 0 := by omega
    simpa [BinaryHeap.size] using List.length_eq_zero.mp (by simpa [BinaryHeap.size] using this)
  have hhc : heapHasChar (build_huffman_tree content) c := by
    unfold build_huffman_tree
    rw [combineLoop_hasChar, initPQ_hasChar]
    exact mem_charFreqs_keys.mpr hc
  unfold heapHasChar at hhc
  rw [← heapHasChar_of_perm (pop_some_perm hpop) c] at hhc
  obtain ⟨t, ht, hct⟩ := hhc
  rw [hempty] at ht
  simp only [List.mem_cons, List.not_mem_nil, or_false] at ht
  rw [← ht]
  exact hct

theorem mapLookup_isSome_of_mem {entries : List (Char × List Char)} {c : Char}
    {code : List Char} (h : (c, code) ∈ entries) :
    (mapLookup entries c).isSome = true := by
  rcases hf : entries.reverse.find? (fun p => p.1 == c) with _ | e
  · exfalso
    have := List.find?_eq_none.mp hf (c, code) (by simpa using h)
    simp at this
  · simp [mapLookup, hf]

theorem mapLookup_some_mem {entries : List (Char × List Char)} {c : Char}
    {code : List Char} (h : mapLookup entries c = some code) :
    (c, code) ∈ entries := by
  unfold mapLookup at h
  rcases hf : entries.reverse.find? (fun p => p.1 == c) with _ | e
  · rw [hf] at h
    simp at h
  · rw [hf] at h
    have he := List.mem_of_find?_eq_some hf
    have hp := List.find?_some hf
    have he1 : e.1 = c := by simpa using hp
    have he2 : e.2 = code := by simpa using h
    have hec : e = (c, code) := by
      obtain ⟨a, b⟩ := e
      simp only [Prod.mk.injEq]
      exact ⟨he1, he2⟩
    rw [hec] at he
    exact List.mem_reverse.mp he

/-- Eliminating a successful `build_huffman_encoding`. -/
theorem build_some_elim {content : List Char} {em : List (Char × List Char)}
    {t : BinaryHeap HuffmanNode}
    (h : build_huffman_encoding content = some (em, t)) :
    ∃ root pq', (build_huffman_tree content).pop = (some root, pq') ∧
      em = recursive_encoding root [] ∧ t = build_huffman_tree content := by
  unfold build_huffman_encoding at h
  dsimp only [] at h
  split at h
  · exact absurd h (by simp)
  · rcases hp : ((build_huffman_tree content).pop).1 with _ | root
    · rw [hp] at h
      simp at h
    · rw [hp] at h
      simp only [Option.some.injEq, Prod.mk.injEq] at h
      refine ⟨root, ((build_huffman_tree content).pop).2, ?_, h.1.symm, h.2.symm⟩
      rw [← hp]

/-- Modelled from the spec: the per-symbol step of `decode` (§4.5), which is
missing from the source (`decode` is `todo!()`).  Starting at a node, consume
one bit per step, descending left on `'0'` and right on `'1'`; emit a symbol
upon reaching a node that carries one.  `none` models the spec's
`TruncatedStream` (bits ran out mid-path) and `CorruptTree` (missing child)
failures. -/
def walkSym : HuffmanNode → List Char → Option (Char × List Char)
  | _, [] => none
  | HuffmanNode.mk _ _ tl tr, b :: bs =>
      match (if b = '0' then tl else tr) with
      | none => none
      | some u =>
          match u with
          | HuffmanNode.mk (some c) _ _ _ => some (c, bs)
          | _ => walkSym u bs
termination_by _ bits => bits.length

theorem walkSym_shrink : ∀ (bits : List Char) (t : HuffmanNode) (c : Char)
    (rest : List Char), walkSym t bits = some (c, rest) → rest.length < bits.length := by
  intro bits
  induction bits with
  | nil =>
    intro t c rest h
    obtain ⟨ch, f, tl, tr⟩ := t
    simp [walkSym] at h
  | cons b bs ih =>
    intro t c rest h
    obtain ⟨ch, f, tl, tr⟩ := t
    rw [walkSym] at h
    rcases hchild : (if b = '0' then tl else tr) with _ | u
    · rw [hchild] at h
      simp at h
    · rw [hchild] at h
      obtain ⟨ch1, f1, tl1, tr1⟩ := u
      rcases ch1 with _ | c1
      · have := ih (HuffmanNode.mk none f1 tl1 tr1) c rest h
        simp only [List.length_cons]
        omega
      · simp only [Option.some.injEq, Prod.mk.injEq] at h
        rw [← h.2]
        simp

/-- Modelled from the spec: `decode` (§4.5), missing from the source.
Repeatedly decode one symbol from the remaining bits, restarting at the
root, until exactly all bits are consumed. -/
def decodeSpec (root : HuffmanNode) (bits : List Char) : Option (List Char) :=
  match bits with
  | [] => some []
  | b :: bs =>
      match hw : walkSym root (b :: bs) with
      | some (c, rest) => (decodeSpec root rest).map (fun out => c :: out)
      | none => none
termination_by bits.length
decreasing_by
  have := walkSym_shrink (b :: bs) root c rest hw
  omega

theorem decodeSpec_nil (root : HuffmanNode) : decodeSpec root [] = some [] := by
  rw [decodeSpec]

/-- The root that `encode` derived its table from (the first pop of the
built tree); paired with the compressed bits this is what any decoder gets. -/
def rootOf (content : List Char) : Option HuffmanNode :=
  ((build_huffman_tree content).pop).1

/-- Compression followed by the spec-modelled decompression. -/
def roundTrip (content : List Char) : Option (List Char) :=
  match encode_string content, rootOf content with
  | some bits, some root => decodeSpec root bits
  | _, _ => none

theorem percUpFrom_zero {α : Type} [LT α]
    [DecidableRel ((· < ·) : α → α → Prop)] (ht : HeapType) (l : List α) :
    percUpFrom ht l 0 = l := by
  rw [percUpFrom_eq_upStep]
  rfl

theorem percUpFrom_one {α : Type} [LT α]
    [DecidableRel ((· < ·) : α → α → Prop)] (ht : HeapType) (l : List α) :
    percUpFrom ht l 1 = upStep ht l 1 0 := by
  rw [percUpFrom_eq_upStep]
  show percUpFrom ht (upStep ht l 1 0) 0 = upStep ht l 1 0
  exact percUpFrom_zero ht _

theorem insert_nil {α : Type} [LT α]
    [DecidableRel ((· < ·) : α → α → Prop)] (ht : HeapType) (x : α) :
    BinaryHeap.insert { heap_type := ht, heap := [] } x =
      { heap_type := ht, heap := [x] } := by
  unfold BinaryHeap.insert percolate_up
  simp only [List.nil_append, List.length_cons, List.length_nil]
  rw [percUpFrom_zero]

theorem insert_one {α : Type} [LT α]
    [DecidableRel ((· < ·) : α → α → Prop)] (ht : HeapType) (a x : α) :
    BinaryHeap.insert { heap_type := ht, heap := [a] } x =
      { heap_type := ht, heap := if comp ht x a then [x, a] else [a, x] } := by
  unfold BinaryHeap.insert percolate_up
  simp only [List.cons_append, List.nil_append, List.length_cons, List.length_nil]
  rw [percUpFrom_one]
  unfold upStep
  simp only [List.getElem?_cons_succ, List.getElem?_cons_zero]
  by_cases hc : comp ht x a = true
  · rw [if_pos hc, if_pos hc]
    rfl
  · rw [if_neg hc, if_neg hc]

theorem percDownFrom_single {α : Type} [LT α]
    [DecidableRel ((· < ·) : α → α → Prop)] (ht : HeapType) (a : α) :
    percDownFrom ht [a] 0 = [a] := by
  rw [percDownFrom_eq]
  rfl

theorem build_encoding_of_ne_nil {content : List Char} (hne : content ≠ []) :
    ∃ em t, build_huffman_encoding content = some (em, t) := by
  have hsz := build_tree_size hne
  have hnn : (build_huffman_tree content).heap ≠ [] := by
    intro h0
    rw [BinaryHeap.size, h0] at hsz
    simp at hsz
  obtain ⟨v, h', hp⟩ := pop_of_ne_nil hnn
  unfold build_huffman_encoding
  dsimp only []
  rw [if_neg (by omega)]
  have h1 : ((build_huffman_tree content).pop).1 = some v := by rw [hp]
  rw [h1]
  exact ⟨_, _, rfl⟩

theorem build_encoding_nil : build_huffman_encoding [] = none := by
  have h1 : build_huffman_tree [] = (BinaryHeap.default : BinaryHeap HuffmanNode) := by
    unfold build_huffman_tree
    have h2 : initPQ (charFreqs []) = (BinaryHeap.default : BinaryHeap HuffmanNode) := rfl
    rw [h2, combineLoop_eq]
    rfl
  unfold build_huffman_encoding
  dsimp only []
  rw [h1]
  rfl

theorem build_tree_zzzz : build_huffman_tree ['z','z','z','z'] =
    { heap_type := HeapType.Min, heap := [HuffmanNode.mk (some 'z') 4 none none] } := by
  unfold build_huffman_tree
  rw [show charFreqs ['z','z','z','z'] = [('z', 4)] from rfl]
  rw [show initPQ [('z', 4)] =
      (BinaryHeap.insert { heap_type := HeapType.Min, heap := [] }
        (HuffmanNode.mk (some 'z') 4 none none)) from rfl]
  rw [insert_nil, combineLoop_eq]
  rfl

theorem build_enc_zzzz : build_huffman_encoding ['z','z','z','z'] =
    some ([('z', ([] : List Char))],
      { heap_type := HeapType.Min, heap := [HuffmanNode.mk (some 'z') 4 none none] }) := by
  unfold build_huffman_encoding
  dsimp only []
  rw [build_tree_zzzz]
  rfl

theorem encode_zzzz : encode_string ['z','z','z','z'] = some [] := by
  unfold encode_string
  rw [build_enc_zzzz]
  rfl

theorem roundtrip_zzzz : roundTrip ['z','z','z','z'] = some [] := by
  unfold roundTrip rootOf
  rw [build_tree_zzzz, encode_zzzz]
  show decodeSpec (HuffmanNode.mk (some 'z') 4 none none) [] = some []
  exact decodeSpec_nil _

theorem encode_nil_none : encode_string ([] : List Char) = none := by
  unfold encode_string
  rw [build_encoding_nil]

theorem pop_ab : BinaryHeap.pop
    { heap_type := HeapType.Min,
      heap := [HuffmanNode.mk (some 'a') 1 none none, HuffmanNode.mk (some 'b') 1 none none] } =
    (some (HuffmanNode.mk (some 'a') 1 none none),
      { heap_type := HeapType.Min, heap := [HuffmanNode.mk (some 'b') 1 none none] }) := by
  have hpd : percolate_down HeapType.Min
      (HuffmanNode.mk (some 'b') 1 none none ::
        List.dropLast [HuffmanNode.mk (some 'b') 1 none none]) =
      [HuffmanNode.mk (some 'b') 1 none none] := by
    unfold percolate_down
    show percDownFrom HeapType.Min [HuffmanNode.mk (some 'b') 1 none none] 0 = _
    exact percDownFrom_single _ _
  rw [pop_cons]
  simp only [show ([HuffmanNode.mk (some 'b') 1 none none].getLast?) =
    some (HuffmanNode.mk (some 'b') 1 none none) from rfl]
  rw [hpd]

theorem build_tree_ab : build_huffman_tree ['a','b'] =
    { heap_type := HeapType.Min,
      heap := [HuffmanNode.mk none 2 (some (HuffmanNode.mk (some 'a') 1 none none))
        (some (HuffmanNode.mk (some 'b') 1 none none))] } := by
  unfold build_huffman_tree
  rw [show charFreqs ['a','b'] = [('a', 1), ('b', 1)] from rfl]
  rw [show initPQ [('a', 1), ('b', 1)] =
      (BinaryHeap.insert
        (BinaryHeap.insert { heap_type := HeapType.Min, heap := [] }
          (HuffmanNode.mk (some 'a') 1 none none))
        (HuffmanNode.mk (some 'b') 1 none none)) from rfl]
  rw [insert_nil, insert_one]
  rw [show (comp HeapType.Min (HuffmanNode.mk (some 'b') 1 none none)
      (HuffmanNode.mk (some 'a') 1 none none)) = false from rfl]
  rw [if_neg (by simp)]
  rw [combineLoop_eq]
  rw [if_pos (by norm_num [BinaryHeap.size])]
  rw [pop_ab]
  show combineLoop (BinaryHeap.insert { heap_type := HeapType.Min, heap := [] }
    (HuffmanNode.mk none ((1 + 1) % 4294967296)
      (some (HuffmanNode.mk (some 'a') 1 none none))
      (some (HuffmanNode.mk (some 'b') 1 none none)))) = _
  rw [insert_nil, combineLoop_eq]
  rfl

theorem build_enc_ab : build_huffman_encoding ['a','b'] =
    some ([('a', ['0']), ('b', ['1'])],
      { heap_type := HeapType.Min,
        heap := [HuffmanNode.mk none 2 (some (HuffmanNode.mk (some 'a') 1 none none))
          (some (HuffmanNode.mk (some 'b') 1 none none))] }) := by
  unfold build_huffman_encoding
  dsimp only []
  rw [build_tree_ab]
  rfl

theorem encodeWith_isSome_aux (em : List (Char × List Char)) :
    ∀ (input : List Char) (a : List Char),
      (∀ c ∈ input, (mapLookup em c).isSome = true) →
      (input.foldl (fun acc c =>
        match acc, mapLookup em c with
        | some a, some code => some (a ++ code)
        | _, _ => none) (some a)).isSome = true := by
  intro input
  induction input with
  | nil =>
    intro a h
    simp
  | cons c cs ih =>
    intro a h
    obtain ⟨code, hcode⟩ := Option.isSome_iff_exists.mp (h c (by simp))
    rw [List.foldl_cons, hcode]
    exact ih (a ++ code) (fun c' hc' => h c' (by simp [hc']))

end Huffman

section HuffmanClaims
open Heap Huffman

/-- C7: `build_huffman_encoding` returns `None` exactly for the empty input;
every non-empty input yields a code table and the backing tree. -/
theorem build_encoding_none_iff (content : List Char) :
    build_huffman_encoding content = none ↔ content = [] := by
  constructor
  · intro h
    by_contra hne
    obtain ⟨em, t, hb⟩ := build_encoding_of_ne_nil hne
    rw [hb] at h
    simp at h
  · intro h
    subst h
    exact build_encoding_nil

/-- C9: for a non-empty input, the derived code table has an entry for every
character of the input, so the per-character `unwrap`ped lookups of
`encode_string` (modelled by `Option`) never fail. -/
theorem encode_lookups_total (content : List Char) (hne : content ≠ []) :
    (∀ em t, build_huffman_encoding content = some (em, t) →
      ∀ c ∈ content, (mapLookup em c).isSome = true) ∧
    (encode_string content).isSome = true := by
  have hpart1 : ∀ em t, build_huffman_encoding content = some (em, t) →
      ∀ c ∈ content, (mapLookup em c).isSome = true := by
    intro em t hb c hc
    obtain ⟨root, pq', hpop, hem, _⟩ := build_some_elim hb
    have hcr : c ∈ chars root := mem_chars_root hpop hc
    obtain ⟨code, hcode⟩ := mem_recursive_encoding c root [] hcr
    rw [hem]
    exact mapLookup_isSome_of_mem hcode
  refine ⟨hpart1, ?_⟩
  obtain ⟨em, t, hb⟩ := build_encoding_of_ne_nil hne
  unfold encode_string
  rw [hb]
  unfold encodeWith
  exact encodeWith_isSome_aux em content [] (hpart1 em t hb)

/-- C10: per-symbol frequencies are accumulated modulo `2^16` (the `u16`
counter) and widened unchanged into the leaves: counts below `2^16` are
exact, larger ones wrap. -/
theorem freq_counter_u16 (content : List Char) :
    (∀ c f, (c, f) ∈ charFreqs content → f = content.count c % 2 ^ 16) ∧
    (∀ c f, (c, f) ∈ charFreqs content → content.count c < 2 ^ 16 →
      f = content.count c) ∧
    (∀ c, c ∈ content →
      HuffmanNode.single (some c) (content.count c % 2 ^ 16) ∈
        (initPQ (charFreqs content)).heap) := by
  obtain ⟨h1, h2, h3⟩ := charFreqs_good content
  have hpow : (2 : Nat) ^ 16 = 65536 := by norm_num
  refine ⟨?_, ?_, ?_⟩
  · intro c f hm
    rw [hpow]
    exact (h1 c f hm).2
  · intro c f hm hlt
    rw [(h1 c f hm).2]
    rw [hpow] at hlt
    exact Nat.mod_eq_of_lt hlt
  · intro c hc
    obtain ⟨f, hf⟩ := h2 c hc
    have hfc : f = content.count c % 65536 := (h1 c f hf).2
    have hmem : HuffmanNode.single (some c) f ∈ (initPQ (charFreqs content)).heap :=
      (initPQ_perm (charFreqs content)).mem_iff.mpr
        (List.mem_map.mpr ⟨(c, f), hf, rfl⟩)
    rw [hpow, ← hfc]
    exact hmem

/-- Witness for C10 on the input "a". -/
theorem freq_counter_u16_witness :
    (('a', 1) ∈ charFreqs ['a']) ∧ (['a'].count 'a' < 2 ^ 16) ∧ 1 = ['a'].count 'a' :=
  ⟨by decide, by decide, (freq_counter_u16 ['a']).2.1 'a' 1 (by decide) (by decide)⟩

/-- C5: in any code table produced by `build_huffman_encoding`, no code is a
prefix of a different code. -/
theorem code_table_prefix_free (content : List Char)
    (em : List (Char × List Char)) (t : BinaryHeap HuffmanNode)
    (hb : build_huffman_encoding content = some (em, t)) :
    ∀ c1 c2 s1 s2, mapLookup em c1 = some s1 → mapLookup em c2 = some s2 →
      s1 ≠ s2 → ¬ s1 <+: s2 := by
  obtain ⟨root, pq', hpop, hem, ht⟩ := build_some_elim hb
  subst hem
  intro c1 c2 s1 s2 h1 h2 hne
  have hm1 := mapLookup_some_mem h1
  have hm2 := mapLookup_some_mem h2
  have hpw := recursive_encoding_pairwise root []
  have hneq : (c1, s1) ≠ (c2, s2) := by
    intro he
    simp only [Prod.mk.injEq] at he
    exact hne he.2
  exact (List.Pairwise.forall incomp_symm hpw hm1 hm2 hneq).1

/-- Witness for C9 on the input "a". -/
theorem encode_lookups_total_witness :
    (['a'] : List Char) ≠ [] ∧ (encode_string ['a']).isSome = true :=
  ⟨by decide, (encode_lookups_total ['a'] (by decide)).2⟩

/-- Witness for C5 on the input "ab": the two derived codes are "0" and "1",
and neither is a prefix of the other. -/
theorem code_table_prefix_free_witness :
    mapLookup [('a', ['0']), ('b', ['1'])] 'a' = some ['0'] ∧
    mapLookup [('a', ['0']), ('b', ['1'])] 'b' = some ['1'] ∧
    ¬ (['0'] : List Char) <+: ['1'] := by
  refine ⟨rfl, rfl, ?_⟩
  exact code_table_prefix_free ['a', 'b'] [('a', ['0']), ('b', ['1'])]
    { heap_type := HeapType.Min,
      heap := [HuffmanNode.mk none 2 (some (HuffmanNode.mk (some 'a') 1 none none))
        (some (HuffmanNode.mk (some 'b') 1 none none))] }
    build_enc_ab 'a' 'b' ['0'] ['1'] rfl rfl (by decide)

/-- C4 (code bug evidence): for the single-distinct-symbol input "zzzz" the
code table assigns 'z' the empty code, not "0", and the compressed output
has 0 bits, not 4. -/
theorem single_symbol_empty_code :
    (∃ t, build_huffman_encoding ['z','z','z','z'] = some ([('z', [])], t)) ∧
    mapLookup [('z', ([] : List Char))] 'z' = some [] ∧
    encode_string ['z','z','z','z'] = some [] ∧ ([] : List Char).length = 0 :=
  ⟨⟨_, build_enc_zzzz⟩, rfl, encode_zzzz, rfl⟩

/-- C1 (code bug evidence): the round trip fails.  Compressing the empty
input panics (`unwrap` of `None`, modelled `none`); compressing "zzzz"
yields zero bits, and the spec-modelled decoder (`decode` itself is
`todo!()` in the source) then returns "" instead of "zzzz". -/
theorem round_trip_fails :
    encode_string ([] : List Char) = none ∧
    roundTrip ['z','z','z','z'] = some [] ∧
    ([] : List Char) ≠ ['z','z','z','z'] :=
  ⟨encode_nil_none, roundtrip_zzzz, by decide⟩

/-- C6 (code bug evidence): encoding a symbol with no table entry hits the
`unwrap` panic of `encode_string` (modelled by `none`); no recoverable
`EncodeError::UnknownSymbol` value exists anywhere in the code. -/
theorem encode_unknown_symbol_panics :
    mapLookup [('a', ['0'])] 'b' = none ∧
    encodeWith [('a', ['0'])] ['b'] = none :=
  ⟨rfl, rfl⟩

end HuffmanClaims
